import Mathlib

/-!
# Verification of the `@qsocket/protocol` binary codec

A shallow embedding of `src/bin/protocol.ts` (class `QSocketProtocol`):
byte buffers are `List Nat` (each element a byte value), JavaScript strings
are `List Nat` of Unicode scalar values, JSON values are an inductive type,
and the host's `JSON.stringify` / `JSON.parse` / `TextEncoder` / `TextDecoder`
are modelled concretely below.  Fallible operations return `Option`:
`none` from `to`/`encodeChunk`/`encodePayloadData` models a thrown error that
the `to` boundary converts to `QSocketProtocolEncodeError`, and `none` from
`from`/`decodeChunk`/`decodePayloadData` models `QSocketProtocolDecodeError`.

All recursive definitions are structural (on an explicit fuel argument where
the natural recursion is not structural) so that every definition evaluates
on concrete inputs by kernel reduction.
-/

namespace QProto

/-! ## Binary primitives (`writeUInt8`, `writeUInt32`, `readUInt32`, doubles)

The source writes big-endian 32-bit integers and 64-bit doubles.  A JS number
used as a NUMBER payload is modelled by its 64-bit big-endian IEEE-754 bit
pattern (a `Nat < 2^64`); `writeDouble`/`readDouble` move between the pattern
and its eight bytes.  `readDouble` returns `none` when fewer than eight bytes
are available, modelling the `RangeError` thrown by `readDoubleBE`/`DataView`
on an out-of-range read. -/

/-- `writeUInt8` from the source: one byte, masked with `& 0xff`. -/
def writeUInt8 (v : Nat) : List Nat := [v % 256]

/-- `readUInt8` from the source: `buffer[offset]`, which in JS is
`undefined` when the offset is out of range.  `none` models `undefined`. -/
def readUInt8 (b : List Nat) (off : Nat) : Option Nat := b.get? off

/-- An in-range byte read, used only at call sites the source guards with a
length check (header and chunk fields); out of range it defaults to 0. -/
def readByteD (b : List Nat) (off : Nat) : Nat := b.getD off 0

/-- `writeUInt32`: four big-endian bytes of `value`.  (In Node the source
would throw for `value ≥ 2^32`; the embedding wraps, and every theorem that
depends on a length field carries the corresponding `< 2^32` bound.) -/
def writeUInt32 (v : Nat) : List Nat :=
  [v / 2 ^ 24 % 256, v / 2 ^ 16 % 256, v / 2 ^ 8 % 256, v % 256]

/-- `readUInt32`: big-endian 32-bit read at `offset`. -/
def readUInt32 (b : List Nat) (off : Nat) : Nat :=
  2 ^ 24 * readByteD b off + 2 ^ 16 * readByteD b (off + 1) +
    2 ^ 8 * readByteD b (off + 2) + readByteD b (off + 3)

/-- `writeDouble`: the eight big-endian bytes of a 64-bit IEEE-754 bit
pattern. -/
def writeDouble (bits : Nat) : List Nat :=
  [bits / 2 ^ 56 % 256, bits / 2 ^ 48 % 256, bits / 2 ^ 40 % 256,
   bits / 2 ^ 32 % 256, bits / 2 ^ 24 % 256, bits / 2 ^ 16 % 256,
   bits / 2 ^ 8 % 256, bits % 256]

/-- `readDouble`: big-endian 64-bit read at offset 0; `none` models the
`RangeError` thrown when the buffer is shorter than eight bytes. -/
def readDouble (b : List Nat) (off : Nat) : Option Nat :=
  if b.length < off + 8 then none
  else some (2 ^ 56 * readByteD b off + 2 ^ 48 * readByteD b (off + 1) +
    2 ^ 40 * readByteD b (off + 2) + 2 ^ 32 * readByteD b (off + 3) +
    2 ^ 24 * readByteD b (off + 4) + 2 ^ 16 * readByteD b (off + 5) +
    2 ^ 8 * readByteD b (off + 6) + readByteD b (off + 7))

theorem length_writeUInt32 (v : Nat) : (writeUInt32 v).length = 4 := rfl

theorem readByteD_append_right (pre l : List Nat) (k : Nat) :
    readByteD (pre ++ l) (pre.length + k) = readByteD l k := by
  simp only [readByteD, List.getD_eq_getElem?_getD,
    List.getElem?_append_right (Nat.le_add_right pre.length k),
    Nat.add_sub_cancel_left]

theorem readUInt32_append (pre rest : List Nat) (v : Nat) (h : v < 2 ^ 32) :
    readUInt32 (pre ++ (writeUInt32 v ++ rest)) pre.length = v := by
  have h0 := readByteD_append_right pre (writeUInt32 v ++ rest) 0
  have h1 := readByteD_append_right pre (writeUInt32 v ++ rest) 1
  have h2 := readByteD_append_right pre (writeUInt32 v ++ rest) 2
  have h3 := readByteD_append_right pre (writeUInt32 v ++ rest) 3
  simp only [Nat.add_zero] at h0
  unfold readUInt32
  rw [h0, h1, h2, h3]
  simp only [writeUInt32, readByteD, List.cons_append, List.nil_append,
    List.getD_cons_zero, List.getD_cons_succ]
  omega

theorem readUInt32_here (rest : List Nat) (v : Nat) (h : v < 2 ^ 32) :
    readUInt32 (writeUInt32 v ++ rest) 0 = v := by
  have := readUInt32_append [] rest v h
  simpa using this

/-! ## UTF-8 (`encodeString` / `decodeString`)

A JavaScript string is modelled as its sequence of Unicode scalar values
(`List Nat`).  `encodeString` is UTF-8 encoding (the `TextEncoder` path of
the source); `decodeString` is UTF-8 decoding with the WHATWG continuation
ranges, emitting U+FFFD on malformed input (the resumption point after a
malformed sequence is approximated; no theorem below depends on malformed
input). -/

/-- A Unicode scalar value: below the surrogate range or between it and
0x110000. -/
def validScalar (c : Nat) : Prop := c < 0xD800 ∨ (0xE000 ≤ c ∧ c < 0x110000)

instance (c : Nat) : Decidable (validScalar c) := by
  unfold validScalar
  infer_instance

/-- UTF-8 encoding of one scalar value (1 to 4 bytes). -/
def utf8EncodeChar (c : Nat) : List Nat :=
  if c < 0x80 then [c]
  else if c < 0x800 then [0xC0 + c / 64, 0x80 + c % 64]
  else if c < 0x10000 then
    [0xE0 + c / 4096, 0x80 + c / 64 % 64, 0x80 + c % 64]
  else
    [0xF0 + c / 0x40000, 0x80 + c / 4096 % 64, 0x80 + c / 64 % 64,
      0x80 + c % 64]

/-- `encodeString` from the source (`TextEncoder.encode`): UTF-8 bytes of the
string. -/
def encodeString (s : List Nat) : List Nat := (s.map utf8EncodeChar).flatten

/-- One step of UTF-8 decoding: given the lead byte and the bytes after it,
the scalar value produced and how many continuation bytes are consumed.
Malformed sequences produce U+FFFD and consume only the lead byte. -/
def utf8Step (b : Nat) (rest : List Nat) : Nat × Nat :=
  if b < 0x80 then (b, 0)
  else if b < 0xC2 then (0xFFFD, 0)
  else if b < 0xE0 then
    match rest with
    | b1 :: _ =>
      if 0x80 ≤ b1 ∧ b1 < 0xC0 then ((b - 0xC0) * 64 + (b1 - 0x80), 1)
      else (0xFFFD, 0)
    | [] => (0xFFFD, 0)
  else if b < 0xF0 then
    match rest with
    | b1 :: b2 :: _ =>
      if ((if b = 0xE0 then 0xA0 else 0x80) ≤ b1 ∧
            b1 < (if b = 0xED then 0xA0 else 0xC0)) ∧
          (0x80 ≤ b2 ∧ b2 < 0xC0) then
        ((b - 0xE0) * 4096 + (b1 - 0x80) * 64 + (b2 - 0x80), 2)
      else (0xFFFD, 0)
    | _ => (0xFFFD, 0)
  else if b < 0xF5 then
    match rest with
    | b1 :: b2 :: b3 :: _ =>
      if ((if b = 0xF0 then 0x90 else 0x80) ≤ b1 ∧
            b1 < (if b = 0xF4 then 0x90 else 0xC0)) ∧
          (0x80 ≤ b2 ∧ b2 < 0xC0) ∧ (0x80 ≤ b3 ∧ b3 < 0xC0) then
        ((b - 0xF0) * 0x40000 + (b1 - 0x80) * 4096 + (b2 - 0x80) * 64 +
          (b3 - 0x80), 3)
      else (0xFFFD, 0)
    | _ => (0xFFFD, 0)
  else (0xFFFD, 0)

/-- Fuel-driven UTF-8 decoding loop; each step consumes at least the lead
byte, so fuel equal to the byte count always suffices. -/
def utf8DecodeF : Nat → List Nat → List Nat
  | 0, _ => []
  | _ + 1, [] => []
  | f + 1, b :: rest =>
    (utf8Step b rest).1 :: utf8DecodeF f (rest.drop (utf8Step b rest).2)

/-- `decodeString` from the source (`TextDecoder('utf8').decode`): UTF-8
decoding, scalar values out of the bytes; malformed sequences produce
U+FFFD. -/
def utf8Decode (l : List Nat) : List Nat := utf8DecodeF l.length l

/-- The decode step inverts the character encoder on a valid scalar: it
produces the scalar and consumes exactly its continuation bytes. -/
theorem utf8Step_encodeChar (c : Nat) (h : validScalar c)
    (rest : List Nat) :
    utf8Step ((utf8EncodeChar c).headI) ((utf8EncodeChar c).tail ++ rest) =
      (c, (utf8EncodeChar c).length - 1) := by
  rcases Nat.lt_or_ge c 0x80 with h1 | h1
  · have he : utf8EncodeChar c = [c] := by
      unfold utf8EncodeChar
      rw [if_pos h1]
    rw [he]
    show utf8Step c rest = (c, 0)
    unfold utf8Step
    rw [if_pos h1]
  rcases Nat.lt_or_ge c 0x800 with h2 | h2
  · have he : utf8EncodeChar c = [0xC0 + c / 64, 0x80 + c % 64] := by
      unfold utf8EncodeChar
      rw [if_neg (by omega), if_pos h2]
    rw [he]
    show utf8Step (0xC0 + c / 64) ((0x80 + c % 64) :: rest) = (c, 1)
    unfold utf8Step
    rw [if_neg (by omega), if_neg (by omega), if_pos (by omega)]
    dsimp only
    rw [if_pos (show 0x80 <= 0x80 + c % 64 ∧ 0x80 + c % 64 < 0xC0 by omega)]
    have : (0xC0 + c / 64 - 0xC0) * 64 + (0x80 + c % 64 - 0x80) = c := by
      omega
    rw [this]
  rcases Nat.lt_or_ge c 0x10000 with h3 | h3
  · have hs : c < 0xD800 ∨ 0xE000 ≤ c := by
      rcases h with h | h
      · exact Or.inl h
      · exact Or.inr h.1
    have he : utf8EncodeChar c =
        [0xE0 + c / 4096, 0x80 + c / 64 % 64, 0x80 + c % 64] := by
      unfold utf8EncodeChar
      rw [if_neg (by omega), if_neg (by omega), if_pos h3]
    rw [he]
    show utf8Step (0xE0 + c / 4096)
        ((0x80 + c / 64 % 64) :: (0x80 + c % 64) :: rest) = (c, 2)
    unfold utf8Step
    rw [if_neg (by omega), if_neg (by omega), if_neg (by omega),
      if_pos (by omega)]
    have hcond : ((if 0xE0 + c / 4096 = 0xE0 then 0xA0 else 0x80) ≤
          0x80 + c / 64 % 64 ∧
          0x80 + c / 64 % 64 < (if 0xE0 + c / 4096 = 0xED then 0xA0
            else 0xC0)) ∧
        (0x80 ≤ 0x80 + c % 64 ∧ 0x80 + c % 64 < 0xC0) := by
      refine ⟨⟨?_, ?_⟩, by omega, by omega⟩
      · split
        · omega
        · omega
      · split
        · omega
        · omega
    dsimp only
    rw [if_pos hcond]
    have : (0xE0 + c / 4096 - 0xE0) * 4096 + (0x80 + c / 64 % 64 - 0x80) *
        64 + (0x80 + c % 64 - 0x80) = c := by
      omega
    rw [this]
  · have h4 : c < 0x110000 := by
      rcases h with h | h
      · omega
      · exact h.2
    have he : utf8EncodeChar c =
        [0xF0 + c / 0x40000, 0x80 + c / 4096 % 64, 0x80 + c / 64 % 64,
          0x80 + c % 64] := by
      unfold utf8EncodeChar
      rw [if_neg (by omega), if_neg (by omega), if_neg (by omega)]
    rw [he]
    show utf8Step (0xF0 + c / 0x40000)
        ((0x80 + c / 4096 % 64) :: (0x80 + c / 64 % 64) ::
          (0x80 + c % 64) :: rest) = (c, 3)
    unfold utf8Step
    rw [if_neg (by omega), if_neg (by omega), if_neg (by omega),
      if_neg (by omega), if_pos (by omega)]
    have hcond : ((if 0xF0 + c / 0x40000 = 0xF0 then 0x90 else 0x80) ≤
          0x80 + c / 4096 % 64 ∧
          0x80 + c / 4096 % 64 < (if 0xF0 + c / 0x40000 = 0xF4 then 0x90
            else 0xC0)) ∧
        (0x80 ≤ 0x80 + c / 64 % 64 ∧ 0x80 + c / 64 % 64 < 0xC0) ∧
        (0x80 ≤ 0x80 + c % 64 ∧ 0x80 + c % 64 < 0xC0) := by
      refine ⟨⟨?_, ?_⟩, ⟨by omega, by omega⟩, by omega, by omega⟩
      · split
        · omega
        · omega
      · split
        · omega
        · omega
    dsimp only
    rw [if_pos hcond]
    have : (0xF0 + c / 0x40000 - 0xF0) * 0x40000 +
        (0x80 + c / 4096 % 64 - 0x80) * 4096 +
        (0x80 + c / 64 % 64 - 0x80) * 64 + (0x80 + c % 64 - 0x80) = c := by
      omega
    rw [this]

theorem utf8EncodeChar_ne_nil (c : Nat) : utf8EncodeChar c ≠ [] := by
  unfold utf8EncodeChar
  split
  · simp
  split
  · simp
  split
  · simp
  · simp

theorem utf8DecodeF_enc : ∀ (s : List Nat) (f : Nat),
    (∀ c ∈ s, validScalar c) →
    utf8DecodeF ((encodeString s).length + f) (encodeString s) = s := by
  intro s
  induction s with
  | nil =>
    intro f _
    cases f
    · rfl
    · rfl
  | cons c cs ih =>
    intro f h
    have hc : validScalar c := h c (List.mem_cons_self c cs)
    have hcs : ∀ x ∈ cs, validScalar x := fun x hx =>
      h x (List.mem_cons_of_mem c hx)
    have henc : encodeString (c :: cs) =
        utf8EncodeChar c ++ encodeString cs := by
      simp [encodeString]
    obtain ⟨b, tl, hbt⟩ : ∃ b tl, utf8EncodeChar c = b :: tl := by
      cases hx : utf8EncodeChar c with
      | nil => exact absurd hx (utf8EncodeChar_ne_nil c)
      | cons b tl => exact ⟨b, tl, rfl⟩
    have hstep : utf8Step b (tl ++ encodeString cs) = (c, tl.length) := by
      have := utf8Step_encodeChar c hc (encodeString cs)
      rw [hbt] at this
      simpa using this
    have hlen : (encodeString (c :: cs)).length + f =
        (tl.length + ((encodeString cs).length + f)) + 1 := by
      rw [henc, hbt]
      simp [List.length_append]
      omega
    rw [hlen, henc, hbt, List.cons_append]
    simp only [utf8DecodeF]
    rw [hstep]
    simp only
    rw [List.drop_left]
    have harr : tl.length + ((encodeString cs).length + f) =
        (encodeString cs).length + (tl.length + f) := by
      omega
    rw [harr, ih (tl.length + f) hcs]

/-- Decoding inverts encoding on strings of valid scalar values. -/
theorem utf8Decode_encodeString (s : List Nat)
    (h : ∀ c ∈ s, validScalar c) :
    utf8Decode (encodeString s) = s := by
  have := utf8DecodeF_enc s 0 h
  simpa [utf8Decode] using this

/-! ## Decimal numerals

`JSON.stringify` prints integers in decimal; `JSON.parse` reads them back.
The numeral printer is fuel-driven (dividing by ten each step) so that it
evaluates by kernel reduction. -/

/-- ASCII decimal digit test. -/
def isDigit (c : Nat) : Bool := 47 < c && c < 58

/-- Decimal digits of `n`, most significant first (fuel-driven). -/
def natDigitsF : Nat → Nat → List Nat
  | 0, _ => []
  | f + 1, n =>
    if n < 10 then [48 + n] else natDigitsF f (n / 10) ++ [48 + n % 10]

/-- Decimal digits of `n`, most significant first. -/
def natDigits (n : Nat) : List Nat := natDigitsF (n + 1) n

/-- Numeric value of a digit string. -/
def digitsVal (ds : List Nat) : Nat :=
  ds.foldl (fun a d => a * 10 + (d - 48)) 0

/-- A numeral with no superfluous leading zero (the JSON `int` grammar). -/
def leadOk : List Nat → Bool
  | [] => false
  | [_] => true
  | d :: _ :: _ => d != 48

theorem natDigitsF_irrel : ∀ f g n, n < f → n < g →
    natDigitsF f n = natDigitsF g n := by
  intro f
  induction f with
  | zero => intro g n h; omega
  | succ f ih =>
    intro g n hf hg
    match g, hg with
    | g + 1, hg =>
      show natDigitsF (f + 1) n = natDigitsF (g + 1) n
      rw [natDigitsF, natDigitsF]
      by_cases h10 : n < 10
      · rw [if_pos h10, if_pos h10]
      · rw [if_neg h10, if_neg h10]
        have hd : n / 10 < n := Nat.div_lt_self (by omega) (by omega)
        rw [ih g (n / 10) (by omega) (by omega)]

theorem natDigits_ne_nil (n : Nat) : natDigits n ≠ [] := by
  unfold natDigits natDigitsF
  by_cases h : n < 10
  · rw [if_pos h]
    simp
  · rw [if_neg h]
    simp

theorem natDigitsF_all_digit : ∀ f n, n < f →
    ∀ d ∈ natDigitsF f n, isDigit d = true := by
  intro f
  induction f with
  | zero => intro n h; omega
  | succ f ih =>
    intro n hf d hd
    rw [natDigitsF] at hd
    by_cases h10 : n < 10
    · rw [if_pos h10] at hd
      simp at hd
      subst hd
      unfold isDigit
      simp only [Bool.and_eq_true, decide_eq_true_eq]
      omega
    · rw [if_neg h10] at hd
      have hlt : n / 10 < n := Nat.div_lt_self (by omega) (by omega)
      rcases List.mem_append.mp hd with h | h
      · exact ih (n / 10) (by omega) d h
      · simp at h
        subst h
        unfold isDigit
        simp only [Bool.and_eq_true, decide_eq_true_eq]
        omega

theorem digitsVal_append (l : List Nat) (d : Nat) :
    digitsVal (l ++ [d]) = digitsVal l * 10 + (d - 48) := by
  simp [digitsVal, List.foldl_append]

theorem natDigitsF_val : ∀ f n, n < f →
    digitsVal (natDigitsF f n) = n := by
  intro f
  induction f with
  | zero => intro n h; omega
  | succ f ih =>
    intro n hf
    rw [natDigitsF]
    by_cases h10 : n < 10
    · rw [if_pos h10]
      show digitsVal [48 + n] = n
      unfold digitsVal
      simp only [List.foldl_cons, List.foldl_nil]
      omega
    · rw [if_neg h10]
      have hlt : n / 10 < n := Nat.div_lt_self (by omega) (by omega)
      rw [digitsVal_append, ih (n / 10) (by omega)]
      omega

theorem natDigits_val (n : Nat) : digitsVal (natDigits n) = n :=
  natDigitsF_val (n + 1) n (Nat.lt_succ_self n)

theorem natDigits_all_digit (n : Nat) :
    ∀ d ∈ natDigits n, isDigit d = true :=
  natDigitsF_all_digit (n + 1) n (Nat.lt_succ_self n)

theorem natDigitsF_head_ne_48 : ∀ f n, n < f → 1 ≤ n →
    ∀ t, natDigitsF f n ≠ 48 :: t := by
  intro f
  induction f with
  | zero => intro n h; omega
  | succ f ih =>
    intro n hf h1 t
    rw [natDigitsF]
    by_cases h10 : n < 10
    · rw [if_pos h10]
      intro hx
      have : 48 + n = 48 := (List.cons.injEq _ _ _ _ ▸ hx).1
      omega
    · rw [if_neg h10]
      have hlt : n / 10 < n := Nat.div_lt_self (by omega) (by omega)
      have hne := natDigitsF_irrel f (n / 10 + 1) (n / 10) (by omega)
        (Nat.lt_succ_self _)
      intro hx
      cases hrec : natDigitsF f (n / 10) with
      | nil =>
        have : digitsVal (natDigitsF f (n / 10)) = n / 10 :=
          natDigitsF_val f (n / 10) (by omega)
        rw [hrec] at this
        simp [digitsVal] at this
        omega
      | cons d ds =>
        rw [hrec] at hx
        simp only [List.cons_append, List.cons.injEq] at hx
        have hd48 : d = 48 := hx.1
        have := ih (n / 10) (by omega) (by omega) ds
        rw [hrec, hd48] at this
        exact this rfl

theorem natDigits_leadOk (n : Nat) : leadOk (natDigits n) = true := by
  by_cases h10 : n < 10
  · unfold natDigits natDigitsF
    rw [if_pos h10]
    rfl
  · cases hrec : natDigits n with
    | nil => exact absurd hrec (natDigits_ne_nil n)
    | cons d ds =>
      cases ds with
      | nil => rfl
      | cons e es =>
        have hd : d ≠ 48 := by
          intro h48
          subst h48
          exact natDigitsF_head_ne_48 (n + 1) n (Nat.lt_succ_self n)
            (by omega) _ hrec
        show (d != 48) = true
        simp [hd]

/-- Heads that stop the digit munch: the continuation after a printed
numeral never starts with a digit. -/
def noDig : List Nat → Prop
  | [] => True
  | c :: _ => isDigit c = false

theorem takeWhile_append_all {p : Nat → Bool} (l rest : List Nat)
    (hl : ∀ d ∈ l, p d = true)
    (hr : match rest with | [] => True | c :: _ => p c = false) :
    (l ++ rest).takeWhile p = l ∧ (l ++ rest).dropWhile p = rest := by
  induction l with
  | nil =>
    cases rest with
    | nil => exact ⟨rfl, rfl⟩
    | cons c r =>
      simp only [List.nil_append]
      constructor
      · rw [List.takeWhile_cons]
        simp only [hr]
        simp
      · rw [List.dropWhile_cons]
        simp only [hr]
        simp
  | cons d l ih =>
    have hd : p d = true := hl d (List.mem_cons_self d l)
    have hl2 : ∀ x ∈ l, p x = true := fun x hx =>
      hl x (List.mem_cons_of_mem d hx)
    obtain ⟨h1, h2⟩ := ih hl2
    constructor
    · rw [List.cons_append, List.takeWhile_cons, hd]
      simp [h1]
    · rw [List.cons_append, List.dropWhile_cons, hd]
      simp [h2]

/-! ## JSON values (`JSON.stringify` / `JSON.parse`)

The JSON-compatible values the codec moves through `JSON.stringify` and
`JSON.parse` (chunk metadata and `JSON` payloads).  Strings are scalar-value
sequences; numbers are modelled as integers (the source's tests only move
doubles, and the fractional grammar decides no claim; the parser below
accepts a strict subset of the texts `JSON.parse` accepts and agrees with it
on all of them, while the printer is exact for integer numbers).  Objects
are ordered field lists: both engines preserve insertion order. -/

inductive Jx where
  | jnull : Jx
  | jbool : Bool → Jx
  | jnum : Int → Jx
  | jstr : List Nat → Jx
  | jarr : List Jx → Jx
  | jobj : List (List Nat × Jx) → Jx

/-- Lower-case hexadecimal digit, as `JSON.stringify` prints in `\u00xx`
escapes. -/
def hexDigitChar (n : Nat) : Nat := if n < 10 then 48 + n else 87 + n

/-- `JSON.stringify` string escaping: quote, backslash, the five short
control escapes, `\u00xx` for the other control characters, everything
else verbatim. -/
def escChar (c : Nat) : List Nat :=
  if c = 0x22 then [0x5C, 0x22]
  else if c = 0x5C then [0x5C, 0x5C]
  else if c = 8 then [0x5C, 98]
  else if c = 9 then [0x5C, 116]
  else if c = 10 then [0x5C, 110]
  else if c = 12 then [0x5C, 102]
  else if c = 13 then [0x5C, 114]
  else if c < 32 then
    [0x5C, 117, 48, 48, hexDigitChar (c / 16), hexDigitChar (c % 16)]
  else [c]

def escapeStr (s : List Nat) : List Nat := (s.map escChar).flatten

/-- A JSON string literal: quote, escaped content, quote. -/
def strLit (s : List Nat) : List Nat := 0x22 :: (escapeStr s ++ [0x22])

/-- Decimal spelling of an integer. -/
def intChars (i : Int) : List Nat :=
  if i < 0 then 45 :: natDigits i.natAbs else natDigits i.toNat

/-- Comma-separated concatenation of rendered parts. -/
def commaSep (parts : List (List Nat)) : List Nat :=
  match parts with
  | [] => []
  | p :: ps => p ++ (ps.map (fun q => 0x2C :: q)).flatten

/-- `JSON.stringify` (fuel-driven; fuel bounds the nesting depth and
`sizeOf` always suffices). -/
def jxWrite : Nat → Jx → List Nat
  | 0, _ => []
  | f + 1, v =>
    match v with
    | .jnull => [110, 117, 108, 108]
    | .jbool b => if b then [116, 114, 117, 101] else [102, 97, 108, 115, 101]
    | .jnum i => intChars i
    | .jstr s => strLit s
    | .jarr l => 0x5B :: (commaSep (l.map (jxWrite f)) ++ [0x5D])
    | .jobj o =>
      0x7B :: (commaSep (o.map (fun kv => strLit kv.1 ++ 0x3A :: jxWrite f kv.2)) ++ [0x7D])

mutual

/-- Structural size of a JSON value, the fuel bound for the printer and
the induction measure of the round-trip proof. -/
def jxSize : Jx → Nat
  | .jnull => 1
  | .jbool _ => 1
  | .jnum _ => 1
  | .jstr _ => 1
  | .jarr l => 1 + jxSizeL l
  | .jobj o => 1 + jxSizeO o

def jxSizeL : List Jx → Nat
  | [] => 0
  | v :: vs => 1 + jxSize v + jxSizeL vs

def jxSizeO : List (List Nat × Jx) → Nat
  | [] => 0
  | kv :: kvs => 1 + jxSize kv.2 + jxSizeO kvs

end

/-- `JSON.stringify` of a value. -/
def jxStringify (v : Jx) : List Nat := jxWrite (jxSize v) v

/-! ### The parser (`JSON.parse`)

A recursive-descent parser over scalar sequences, written as one fuel-driven
dispatcher over explicit tasks so that every recursion is structural on the
fuel.  Fuel bounds the call depth; successive calls consume at least one
character every two levels, so `2·length + 2` always suffices. -/

inductive PTask where
  | pval : List Nat → PTask
  | pelems : List Nat → PTask
  | pfields : List Nat → PTask
  | pstr : List Nat → PTask

inductive PRes where
  | rv : Jx → List Nat → PRes
  | rl : List Jx → List Nat → PRes
  | rf : List (List Nat × Jx) → List Nat → PRes
  | rs : List Nat → List Nat → PRes

/-- Value of one hexadecimal digit (either case). -/
def hexVal (c : Nat) : Option Nat :=
  if 48 ≤ c ∧ c ≤ 57 then some (c - 48)
  else if 97 ≤ c ∧ c ≤ 102 then some (c - 87)
  else if 65 ≤ c ∧ c ≤ 70 then some (c - 55)
  else none

/-- The single-character string escapes of JSON. -/
def escDecode (e : Nat) : Option Nat :=
  if e = 0x22 then some 0x22
  else if e = 0x5C then some 0x5C
  else if e = 0x2F then some 0x2F
  else if e = 98 then some 8
  else if e = 116 then some 9
  else if e = 110 then some 10
  else if e = 102 then some 12
  else if e = 114 then some 13
  else none

/-- One step of string-body parsing (after the opening quote). -/
def stepStr (rec : PTask → Option PRes) (l : List Nat) : Option PRes :=
  match l with
  | [] => none
  | c :: r =>
    if c = 0x22 then some (.rs [] r)
    else if c = 0x5C then
      match r with
      | [] => none
      | e :: r2 =>
        if e = 117 then
          match r2 with
          | h1 :: h2 :: h3 :: h4 :: r3 =>
            match hexVal h1, hexVal h2, hexVal h3, hexVal h4 with
            | some a, some b, some c4, some d =>
              if ((a * 16 + b) * 16 + c4) * 16 + d < 0xD800 ∨
                  0xE000 ≤ ((a * 16 + b) * 16 + c4) * 16 + d then
                match rec (.pstr r3) with
                | some (.rs s rest) =>
                  some (.rs ((((a * 16 + b) * 16 + c4) * 16 + d) :: s) rest)
                | _ => none
              else none
            | _, _, _, _ => none
          | _ => none
        else
          match escDecode e with
          | some d =>
            match rec (.pstr r2) with
            | some (.rs s rest) => some (.rs (d :: s) rest)
            | _ => none
          | none => none
    else if c < 32 then none
    else
      match rec (.pstr r) with
      | some (.rs s rest) => some (.rs (c :: s) rest)
      | _ => none

/-- One step of value parsing. -/
def stepVal (rec : PTask → Option PRes) (l : List Nat) : Option PRes :=
  match l with
  | [] => none
  | c :: r =>
    if c = 0x22 then
      match rec (.pstr r) with
      | some (.rs s rest) => some (.rv (.jstr s) rest)
      | _ => none
    else if c = 0x7B then
      match r with
      | [] => none
      | c2 :: r2 =>
        if c2 = 0x7D then some (.rv (.jobj []) r2)
        else
          match rec (.pfields r) with
          | some (.rf fs rest) => some (.rv (.jobj fs) rest)
          | _ => none
    else if c = 0x5B then
      match r with
      | [] => none
      | c2 :: r2 =>
        if c2 = 0x5D then some (.rv (.jarr []) r2)
        else
          match rec (.pelems r) with
          | some (.rl vs rest) => some (.rv (.jarr vs) rest)
          | _ => none
    else if c = 110 then
      match r with
      | e1 :: e2 :: e3 :: r2 =>
        if e1 = 117 ∧ e2 = 108 ∧ e3 = 108 then some (.rv .jnull r2) else none
      | _ => none
    else if c = 116 then
      match r with
      | e1 :: e2 :: e3 :: r2 =>
        if e1 = 114 ∧ e2 = 117 ∧ e3 = 101 then some (.rv (.jbool true) r2)
        else none
      | _ => none
    else if c = 102 then
      match r with
      | e1 :: e2 :: e3 :: e4 :: r2 =>
        if e1 = 97 ∧ e2 = 108 ∧ e3 = 115 ∧ e4 = 101 then
          some (.rv (.jbool false) r2)
        else none
      | _ => none
    else if c = 45 then
      if r.takeWhile isDigit ≠ [] ∧ leadOk (r.takeWhile isDigit) then
        some (.rv (.jnum (-(digitsVal (r.takeWhile isDigit) : Int)))
          (r.dropWhile isDigit))
      else none
    else if isDigit c then
      if leadOk ((c :: r).takeWhile isDigit) then
        some (.rv (.jnum ((digitsVal ((c :: r).takeWhile isDigit) : Int)))
          ((c :: r).dropWhile isDigit))
      else none
    else none

/-- One step of array-element list parsing (after `[`, at least one
element). -/
def stepElems (rec : PTask → Option PRes) (l : List Nat) : Option PRes :=
  match rec (.pval l) with
  | some (.rv v rest) =>
    match rest with
    | [] => none
    | c :: r2 =>
      if c = 0x2C then
        match rec (.pelems r2) with
        | some (.rl vs rest2) => some (.rl (v :: vs) rest2)
        | _ => none
      else if c = 0x5D then some (.rl [v] r2)
      else none
  | _ => none

/-- One step of object-field list parsing (after `{`, at least one
field). -/
def stepFields (rec : PTask → Option PRes) (l : List Nat) : Option PRes :=
  match l with
  | [] => none
  | c :: r =>
    if c = 0x22 then
      match rec (.pstr r) with
      | some (.rs k rest) =>
        match rest with
        | [] => none
        | c2 :: r2 =>
          if c2 = 0x3A then
            match rec (.pval r2) with
            | some (.rv v rest2) =>
              match rest2 with
              | [] => none
              | c3 :: r3 =>
                if c3 = 0x2C then
                  match rec (.pfields r3) with
                  | some (.rf fs rest3) => some (.rf ((k, v) :: fs) rest3)
                  | _ => none
                else if c3 = 0x7D then some (.rf [(k, v)] r3)
                else none
            | _ => none
          else none
      | _ => none
    else none

/-- The fuel-driven parsing dispatcher. -/
def parseCore : Nat → PTask → Option PRes
  | 0, _ => none
  | f + 1, .pval l => stepVal (parseCore f) l
  | f + 1, .pelems l => stepElems (parseCore f) l
  | f + 1, .pfields l => stepFields (parseCore f) l
  | f + 1, .pstr l => stepStr (parseCore f) l

/-- `JSON.parse`: parse one value and require the input to be fully
consumed. -/
def jsonParse (s : List Nat) : Option Jx :=
  match parseCore (2 * s.length + 2) (.pval s) with
  | some (.rv v rest) => if rest = [] then some v else none
  | _ => none

example : jsonParse [53] = some (.jnum 5) := rfl
example : jsonParse [110, 117, 108, 108] = some .jnull := rfl
example : jsonParse [123, 125] = some (.jobj []) := rfl
example : jsonParse [91, 53, 44, 54, 93] =
    some (.jarr [.jnum 5, .jnum 6]) := rfl
example : jsonParse (jxStringify (.jobj [([117], .jstr [118])])) =
    some (.jobj [([117], .jstr [118])]) := rfl

theorem escapeStr_cons (c : Nat) (cs : List Nat) :
    escapeStr (c :: cs) = escChar c ++ escapeStr cs := by
  simp [escapeStr]

theorem hexVal_hexDigitChar (n : Nat) (h : n < 16) :
    hexVal (hexDigitChar n) = some n := by
  unfold hexVal hexDigitChar
  by_cases h10 : n < 10
  · rw [if_pos h10, if_pos (show 48 ≤ 48 + n ∧ 48 + n ≤ 57 by omega)]
    congr 1
    omega
  · rw [if_neg h10, if_neg (show ¬(48 ≤ 87 + n ∧ 87 + n ≤ 57) by omega),
      if_pos (show 97 ≤ 87 + n ∧ 87 + n ≤ 102 by omega)]
    congr 1
    omega

theorem parseCore_succ_str (f : Nat) (l : List Nat) :
    parseCore (f + 1) (.pstr l) = stepStr (parseCore f) l := rfl

theorem parseCore_succ_val (f : Nat) (l : List Nat) :
    parseCore (f + 1) (.pval l) = stepVal (parseCore f) l := rfl

theorem parseCore_succ_elems (f : Nat) (l : List Nat) :
    parseCore (f + 1) (.pelems l) = stepElems (parseCore f) l := rfl

theorem parseCore_succ_fields (f : Nat) (l : List Nat) :
    parseCore (f + 1) (.pfields l) = stepFields (parseCore f) l := rfl

/-- The string parser inverts `JSON.stringify` escaping: after the opening
quote, parsing the escaped content followed by the closing quote yields the
original string and the remaining input. -/
theorem parseCore_escape : ∀ (s : List Nat) (f : Nat) (rest : List Nat),
    s.length + 1 ≤ f →
    parseCore f (.pstr (escapeStr s ++ 0x22 :: rest)) =
      some (.rs s rest) := by
  intro s
  induction s with
  | nil =>
    intro f rest hf
    match f, hf with
    | f + 1, _ =>
      rw [parseCore_succ_str]
      show stepStr (parseCore f) (0x22 :: rest) = _
      simp [stepStr]
  | cons c cs ih =>
    intro f rest hf
    match f, hf with
    | f + 1, hf =>
      have hf' : cs.length + 1 ≤ f := by
        simp only [List.length_cons] at hf
        omega
      rw [parseCore_succ_str, escapeStr_cons, List.append_assoc]
      by_cases h1 : c = 0x22
      · subst h1
        show stepStr (parseCore f)
          (0x5C :: 0x22 :: (escapeStr cs ++ 0x22 :: rest)) = _
        simp [stepStr, escDecode, ih f rest hf']
      by_cases h2 : c = 0x5C
      · subst h2
        show stepStr (parseCore f)
          (0x5C :: 0x5C :: (escapeStr cs ++ 0x22 :: rest)) = _
        simp [stepStr, escDecode, ih f rest hf']
      by_cases h3 : c = 8
      · subst h3
        show stepStr (parseCore f)
          (0x5C :: 98 :: (escapeStr cs ++ 0x22 :: rest)) = _
        simp [stepStr, escDecode, ih f rest hf']
      by_cases h4 : c = 9
      · subst h4
        show stepStr (parseCore f)
          (0x5C :: 116 :: (escapeStr cs ++ 0x22 :: rest)) = _
        simp [stepStr, escDecode, ih f rest hf']
      by_cases h5 : c = 10
      · subst h5
        show stepStr (parseCore f)
          (0x5C :: 110 :: (escapeStr cs ++ 0x22 :: rest)) = _
        simp [stepStr, escDecode, ih f rest hf']
      by_cases h6 : c = 12
      · subst h6
        show stepStr (parseCore f)
          (0x5C :: 102 :: (escapeStr cs ++ 0x22 :: rest)) = _
        simp [stepStr, escDecode, ih f rest hf']
      by_cases h7 : c = 13
      · subst h7
        show stepStr (parseCore f)
          (0x5C :: 114 :: (escapeStr cs ++ 0x22 :: rest)) = _
        simp [stepStr, escDecode, ih f rest hf']
      by_cases h8 : c < 32
      · have hesc : escChar c =
            [0x5C, 117, 48, 48, hexDigitChar (c / 16),
              hexDigitChar (c % 16)] := by
          unfold escChar
          rw [if_neg h1, if_neg h2, if_neg h3, if_neg h4, if_neg h5,
            if_neg h6, if_neg h7, if_pos h8]
        rw [hesc]
        show stepStr (parseCore f)
          (0x5C :: 117 :: 48 :: 48 :: hexDigitChar (c / 16) ::
            hexDigitChar (c % 16) :: (escapeStr cs ++ 0x22 :: rest)) = _
        simp [stepStr, show hexVal 48 = some 0 from rfl,
          hexVal_hexDigitChar (c / 16) (by omega),
          hexVal_hexDigitChar (c % 16) (by omega),
          show c / 16 * 16 + c % 16 = c from by omega,
          show c < 55296 ∨ 57344 ≤ c from Or.inl (by omega),
          ih f rest hf']
      · have hesc : escChar c = [c] := by
          unfold escChar
          rw [if_neg h1, if_neg h2, if_neg h3, if_neg h4, if_neg h5,
            if_neg h6, if_neg h7, if_neg h8]
        rw [hesc]
        show stepStr (parseCore f) (c :: (escapeStr cs ++ 0x22 :: rest)) = _
        simp [stepStr, h1, h2, h8, ih f rest hf']

theorem escapeStr_length_ge (s : List Nat) :
    s.length ≤ (escapeStr s).length := by
  induction s with
  | nil => simp [escapeStr]
  | cons c cs ih =>
    rw [escapeStr_cons, List.length_append, List.length_cons]
    have : 1 ≤ (escChar c).length := by
      unfold escChar
      repeat' split
      all_goals simp
    omega

theorem intChars_ne_nil (i : Int) : intChars i ≠ [] := by
  unfold intChars
  split
  · simp
  · exact natDigits_ne_nil _

theorem jxSize_pos (v : Jx) : 1 ≤ jxSize v := by
  cases v <;> simp [jxSize]

theorem jxSizeL_lt_of_mem {v : Jx} {l : List Jx} (h : v ∈ l) :
    jxSize v < jxSizeL l := by
  induction l with
  | nil => cases h
  | cons u us ih =>
    rcases List.mem_cons.mp h with h | h
    · subst h
      rw [jxSizeL]
      omega
    · have := ih h
      rw [jxSizeL]
      omega

theorem jxSizeO_lt_of_mem {kv : List Nat × Jx} {o : List (List Nat × Jx)}
    (h : kv ∈ o) : jxSize kv.2 < jxSizeO o := by
  induction o with
  | nil => cases h
  | cons u us ih =>
    rcases List.mem_cons.mp h with h | h
    · subst h
      rw [jxSizeO]
      omega
    · have := ih h
      rw [jxSizeO]
      omega

/-- The first character a printed value can start with; in particular it is
never a closing bracket, closing brace, comma or colon. -/
theorem jxWrite_head (wf : Nat) (v : Jx) (h : jxSize v ≤ wf) :
    ∃ c r, jxWrite wf v = c :: r ∧
      (c = 110 ∨ c = 116 ∨ c = 102 ∨ c = 45 ∨ isDigit c = true ∨
        c = 0x22 ∨ c = 0x5B ∨ c = 0x7B) := by
  have hp := jxSize_pos v
  obtain ⟨wf, rfl⟩ : ∃ w, wf = w + 1 := ⟨wf - 1, by omega⟩
  cases v with
    | jnull => exact ⟨110, _, rfl, Or.inl rfl⟩
    | jbool b =>
      cases b
      · exact ⟨102, _, rfl, by tauto⟩
      · exact ⟨116, _, rfl, by tauto⟩
    | jnum i =>
      show ∃ c r, intChars i = c :: r ∧ _
      unfold intChars
      by_cases hneg : i < 0
      · rw [if_pos hneg]
        exact ⟨45, _, rfl, by tauto⟩
      · rw [if_neg hneg]
        cases hd : natDigits i.toNat with
        | nil => exact absurd hd (natDigits_ne_nil _)
        | cons d ds =>
          refine ⟨d, ds, rfl, ?_⟩
          have := natDigits_all_digit i.toNat d (hd ▸ List.mem_cons_self d ds)
          tauto
    | jstr s => exact ⟨0x22, _, rfl, by tauto⟩
    | jarr l => exact ⟨0x5B, _, rfl, by tauto⟩
    | jobj o => exact ⟨0x7B, _, rfl, by tauto⟩

theorem head_not_closers {c : Nat}
    (h : c = 110 ∨ c = 116 ∨ c = 102 ∨ c = 45 ∨ isDigit c = true ∨
      c = 0x22 ∨ c = 0x5B ∨ c = 0x7B) :
    c ≠ 0x5D ∧ c ≠ 0x7D := by
  rcases h with h | h | h | h | h | h | h | h
  all_goals first
    | (subst h; exact ⟨by omega, by omega⟩)
    | (unfold isDigit at h
       simp only [Bool.and_eq_true, decide_eq_true_eq] at h
       exact ⟨by omega, by omega⟩)

/-- Rendering a nonempty comma-separated list: the separators fold back. -/
theorem commaSep_flatten (p : List Nat) (ps : List (List Nat)) :
    commaSep (p :: ps) = p ++ (ps.map (fun q => 0x2C :: q)).flatten := rfl

theorem flatten_comma_cons (q : List Nat) (qs : List (List Nat)) :
    ((q :: qs).map (fun x => 0x2C :: x)).flatten =
      0x2C :: commaSep (q :: qs) := by
  simp only [List.map_cons, List.flatten_cons, commaSep_flatten]
  rfl

theorem noDigOf (c : Nat) (r : List Nat) (h : isDigit c = false) :
    noDig (c :: r) := h

theorem digits_munch (l rest : List Nat)
    (hl : ∀ d ∈ l, isDigit d = true) (hr : noDig rest) :
    (l ++ rest).takeWhile isDigit = l ∧
      (l ++ rest).dropWhile isDigit = rest := by
  apply takeWhile_append_all l rest hl
  cases rest with
  | nil => trivial
  | cons c r => exact hr

/-- The value parser inverts the printer: parsing a printed value (with any
non-digit continuation) returns the value and the continuation.  Fuel
`2·printed length` suffices for the parser, and any printer fuel at least
the value's size prints it. -/
theorem parse_jxWrite : ∀ wf (v : Jx), jxSize v ≤ wf → ∀ f rest,
    2 * (jxWrite wf v).length ≤ f → noDig rest →
    parseCore f (.pval (jxWrite wf v ++ rest)) = some (.rv v rest) := by
  intro wf
  induction wf with
  | zero =>
    intro v hv
    have := jxSize_pos v
    omega
  | succ wf ih =>
    have He : ∀ l : List Jx, (∀ v ∈ l, jxSize v ≤ wf) → l ≠ [] →
        ∀ f rest, 2 * (commaSep (l.map (jxWrite wf))).length + 3 ≤ f →
        noDig rest →
        parseCore f
          (.pelems (commaSep (l.map (jxWrite wf)) ++ 0x5D :: rest)) =
          some (.rl l rest) := by
      intro l
      induction l with
      | nil => intro _ hne; exact absurd rfl hne
      | cons v1 tail ihl =>
        intro hsz _ f rest hf hnd
        have hv1 : jxSize v1 ≤ wf := hsz v1 (List.mem_cons_self _ _)
        obtain ⟨g, rfl⟩ : ∃ g, f = g + 1 := ⟨f - 1, by omega⟩
        rw [parseCore_succ_elems]
        cases tail with
        | nil =>
          have hcs : commaSep ((v1 :: ([] : List Jx)).map (jxWrite wf)) =
              jxWrite wf v1 := by
            rw [List.map_cons, List.map_nil, commaSep_flatten,
              List.map_nil, List.flatten_nil, List.append_nil]
          rw [hcs] at hf ⊢
          unfold stepElems
          rw [ih v1 hv1 g (0x5D :: rest) (by omega) (noDigOf _ _ rfl)]
          dsimp only
          rw [if_neg (by omega), if_pos rfl]
        | cons v2 tail2 =>
          have hcs : commaSep ((v1 :: v2 :: tail2).map (jxWrite wf)) =
              jxWrite wf v1 ++
                0x2C :: commaSep ((v2 :: tail2).map (jxWrite wf)) := by
            rw [List.map_cons, commaSep_flatten, List.map_cons,
              flatten_comma_cons, ← List.map_cons]
          rw [hcs] at hf
          rw [hcs, List.append_assoc, List.cons_append]
          simp only [List.length_append, List.length_cons] at hf
          unfold stepElems
          rw [ih v1 hv1 g
            (0x2C :: (commaSep ((v2 :: tail2).map (jxWrite wf)) ++
              0x5D :: rest)) (by omega) (noDigOf _ _ rfl)]
          dsimp only
          rw [if_pos rfl]
          rw [ihl (fun v hv => hsz v (List.mem_cons_of_mem _ hv))
            (List.cons_ne_nil _ _) g rest (by omega) hnd]
    have Hf : ∀ o : List (List Nat × Jx),
        (∀ kv ∈ o, jxSize kv.2 ≤ wf) → o ≠ [] →
        ∀ f rest, 2 * (commaSep (o.map (fun kv =>
          strLit kv.1 ++ 0x3A :: jxWrite wf kv.2))).length + 3 ≤ f →
        noDig rest →
        parseCore f (.pfields (commaSep (o.map (fun kv =>
          strLit kv.1 ++ 0x3A :: jxWrite wf kv.2)) ++ 0x7D :: rest)) =
          some (.rf o rest) := by
      intro o
      induction o with
      | nil => intro _ hne; exact absurd rfl hne
      | cons kv tail ihl =>
        obtain ⟨k, v1⟩ := kv
        intro hsz _ f rest hf hnd
        have hv1 : jxSize v1 ≤ wf := hsz (k, v1) (List.mem_cons_self _ _)
        obtain ⟨g, rfl⟩ : ∃ g, f = g + 1 := ⟨f - 1, by omega⟩
        rw [parseCore_succ_fields]
        have hpart : strLit k ++ 0x3A :: jxWrite wf v1 =
            0x22 :: (escapeStr k ++ 0x22 :: 0x3A :: jxWrite wf v1) := by
          unfold strLit
          simp [List.append_assoc]
        have hlp : (strLit k ++ 0x3A :: jxWrite wf v1).length =
            (escapeStr k).length + 3 + (jxWrite wf v1).length := by
          rw [hpart]
          simp only [List.length_cons, List.length_append]
          omega
        have hesc := escapeStr_length_ge k
        cases tail with
        | nil =>
          have hcs : commaSep ((((k, v1)) :: ([] : List (List Nat × Jx))).map
              (fun kv => strLit kv.1 ++ 0x3A :: jxWrite wf kv.2)) =
              strLit k ++ 0x3A :: jxWrite wf v1 := by
            rw [List.map_cons, List.map_nil, commaSep_flatten,
              List.map_nil, List.flatten_nil, List.append_nil]
          rw [hcs] at hf ⊢
          rw [hlp] at hf
          rw [hpart, List.cons_append, List.append_assoc,
            List.cons_append, List.cons_append]
          unfold stepFields
          dsimp only
          rw [if_pos rfl]
          rw [parseCore_escape k g (0x3A :: (jxWrite wf v1 ++ 0x7D :: rest))
            (by omega)]
          dsimp only
          rw [if_pos rfl]
          rw [ih v1 hv1 g (0x7D :: rest) (by omega) (noDigOf _ _ rfl)]
          dsimp only
          rw [if_neg (by omega), if_pos rfl]
        | cons kv2 tail2 =>
          have hcs : commaSep ((((k, v1)) :: kv2 :: tail2).map
              (fun kv => strLit kv.1 ++ 0x3A :: jxWrite wf kv.2)) =
              (strLit k ++ 0x3A :: jxWrite wf v1) ++
                0x2C :: commaSep ((kv2 :: tail2).map
                  (fun kv => strLit kv.1 ++ 0x3A :: jxWrite wf kv.2)) :=
            rfl
          rw [hcs] at hf
          rw [List.length_append, hlp, List.length_cons] at hf
          rw [hcs, List.append_assoc, List.cons_append]
          rw [hpart, List.cons_append, List.append_assoc,
            List.cons_append, List.cons_append]
          unfold stepFields
          dsimp only
          rw [if_pos rfl]
          rw [parseCore_escape k g
            (0x3A :: (jxWrite wf v1 ++
              0x2C :: (commaSep ((kv2 :: tail2).map (fun kv =>
                strLit kv.1 ++ 0x3A :: jxWrite wf kv.2)) ++ 0x7D :: rest)))
            (by omega)]
          dsimp only
          rw [if_pos rfl]
          rw [ih v1 hv1 g
            (0x2C :: (commaSep ((kv2 :: tail2).map (fun kv =>
              strLit kv.1 ++ 0x3A :: jxWrite wf kv.2)) ++ 0x7D :: rest))
            (by omega) (noDigOf _ _ rfl)]
          dsimp only
          rw [if_pos rfl]
          rw [ihl (fun kv hkv => hsz kv (List.mem_cons_of_mem _ hkv))
            (List.cons_ne_nil _ _) g rest (by omega) hnd]
    intro v hv f rest hf hnd
    obtain ⟨c0, r0, hw0, hhead⟩ := jxWrite_head (wf + 1) v hv
    have hne : (jxWrite (wf + 1) v).length ≠ 0 := by
      rw [hw0]
      simp
    obtain ⟨g, rfl⟩ : ∃ g, f = g + 1 := ⟨f - 1, by omega⟩
    rw [parseCore_succ_val]
    cases v with
    | jnull =>
      show stepVal (parseCore g) (110 :: 117 :: 108 :: 108 :: rest) = _
      simp [stepVal]
    | jbool b =>
      cases b
      · show stepVal (parseCore g)
          (102 :: 97 :: 108 :: 115 :: 101 :: rest) = _
        simp [stepVal]
      · show stepVal (parseCore g) (116 :: 114 :: 117 :: 101 :: rest) = _
        simp [stepVal]
    | jnum i =>
      by_cases hneg : i < 0
      · have hw : jxWrite (wf + 1) (.jnum i) = 45 :: natDigits i.natAbs := by
          show intChars i = _
          unfold intChars
          rw [if_pos hneg]
        rw [hw, List.cons_append]
        unfold stepVal
        dsimp only
        rw [if_neg (by omega), if_neg (by omega), if_neg (by omega),
          if_neg (by omega), if_neg (by omega), if_neg (by omega),
          if_pos rfl]
        obtain ⟨ht, hdw⟩ := digits_munch (natDigits i.natAbs) rest
          (natDigits_all_digit _) hnd
        rw [ht, hdw]
        rw [if_pos (by
          constructor
          · exact natDigits_ne_nil _
          · exact natDigits_leadOk _)]
        rw [natDigits_val]
        have : -((i.natAbs : Nat) : Int) = i := by omega
        rw [this]
      · have hw : jxWrite (wf + 1) (.jnum i) = natDigits i.toNat := by
          show intChars i = _
          unfold intChars
          rw [if_neg hneg]
        cases hd : natDigits i.toNat with
        | nil => exact absurd hd (natDigits_ne_nil _)
        | cons d ds =>
          have hdig : ∀ x ∈ d :: ds, isDigit x = true := by
            rw [← hd]
            exact natDigits_all_digit i.toNat
          have hdd : isDigit d = true := hdig d (List.mem_cons_self _ _)
          have hdr : 47 < d ∧ d < 58 := by
            unfold isDigit at hdd
            simp only [Bool.and_eq_true, decide_eq_true_eq] at hdd
            exact hdd
          rw [hw, hd, List.cons_append]
          unfold stepVal
          dsimp only
          rw [if_neg (by omega), if_neg (by omega), if_neg (by omega),
            if_neg (by omega), if_neg (by omega), if_neg (by omega),
            if_neg (by omega), if_pos hdd]
          rw [← List.cons_append]
          obtain ⟨ht, hdw⟩ := digits_munch (d :: ds) rest hdig hnd
          rw [ht, hdw]
          rw [if_pos (by rw [← hd]; exact natDigits_leadOk _)]
          rw [← hd, natDigits_val]
          have : ((i.toNat : Nat) : Int) = i := by omega
          rw [this]
    | jstr s =>
      have hw : jxWrite (wf + 1) (.jstr s) = strLit s := rfl
      have hlen : 2 * (strLit s).length ≤ g + 1 := by
        rw [← hw]
        exact hf
      have hesc := escapeStr_length_ge s
      rw [hw]
      rw [show strLit s ++ rest =
          0x22 :: (escapeStr s ++ (0x22 :: rest)) from by
        unfold strLit
        simp]
      unfold stepVal
      dsimp only
      rw [if_pos rfl]
      rw [parseCore_escape s g rest (by
        unfold strLit at hlen
        simp at hlen
        omega)]
    | jarr l =>
      cases l with
      | nil =>
        show stepVal (parseCore g) (91 :: 93 :: rest) = _
        simp [stepVal]
      | cons v1 vs =>
        have hsz : ∀ x ∈ v1 :: vs, jxSize x ≤ wf := by
          intro x hx
          have h1 : jxSize (Jx.jarr (v1 :: vs)) = 1 + jxSizeL (v1 :: vs) :=
            rfl
          have h2 := jxSizeL_lt_of_mem hx
          omega
        have hw : jxWrite (wf + 1) (.jarr (v1 :: vs)) =
            0x5B :: (commaSep ((v1 :: vs).map (jxWrite wf)) ++ [0x5D]) :=
          rfl
        have hlen : 2 * (0x5B :: (commaSep ((v1 :: vs).map (jxWrite wf)) ++
            [0x5D])).length ≤ g + 1 := by
          rw [← hw]
          exact hf
        simp only [List.length_cons, List.length_append] at hlen
        rw [hw, List.cons_append, List.append_assoc]
        rw [show [0x5D] ++ rest = 0x5D :: rest from rfl]
        obtain ⟨c1, r1, hw1, hhead1⟩ :=
          jxWrite_head wf v1 (hsz v1 (List.mem_cons_self _ _))
        have hcs : commaSep ((v1 :: vs).map (jxWrite wf)) =
            c1 :: (r1 ++ ((vs.map (jxWrite wf)).map
              (fun q => 0x2C :: q)).flatten) := by
          rw [List.map_cons, commaSep_flatten, hw1, List.cons_append]
        have hsplit : commaSep ((v1 :: vs).map (jxWrite wf)) ++
            0x5D :: rest = c1 :: ((r1 ++ ((vs.map (jxWrite wf)).map
              (fun q => 0x2C :: q)).flatten) ++ 0x5D :: rest) := by
          rw [hcs, List.cons_append]
        unfold stepVal
        dsimp only
        rw [if_neg (by omega), if_neg (by omega), if_pos rfl]
        nth_rewrite 1 [hsplit]
        dsimp only
        rw [if_neg (head_not_closers hhead1).1]
        rw [He (v1 :: vs) hsz (List.cons_ne_nil _ _) g rest
          (by omega) hnd]
    | jobj o =>
      cases o with
      | nil =>
        show stepVal (parseCore g) (123 :: 125 :: rest) = _
        simp [stepVal]
      | cons kv tail =>
        obtain ⟨k, v1⟩ := kv
        have hsz : ∀ x ∈ (k, v1) :: tail, jxSize x.2 ≤ wf := by
          intro x hx
          have h1 : jxSize (Jx.jobj ((k, v1) :: tail)) =
              1 + jxSizeO ((k, v1) :: tail) := rfl
          have h2 := jxSizeO_lt_of_mem hx
          omega
        have hw : jxWrite (wf + 1) (.jobj ((k, v1) :: tail)) =
            0x7B :: (commaSep (((k, v1) :: tail).map (fun kv =>
              strLit kv.1 ++ 0x3A :: jxWrite wf kv.2)) ++ [0x7D]) := rfl
        have hlen : 2 * (0x7B :: (commaSep (((k, v1) :: tail).map
            (fun kv => strLit kv.1 ++ 0x3A :: jxWrite wf kv.2)) ++
            [0x7D])).length ≤ g + 1 := by
          rw [← hw]
          exact hf
        simp only [List.length_cons, List.length_append] at hlen
        rw [hw, List.cons_append, List.append_assoc]
        rw [show [0x7D] ++ rest = 0x7D :: rest from rfl]
        have hcs : commaSep (((k, v1) :: tail).map (fun kv =>
            strLit kv.1 ++ 0x3A :: jxWrite wf kv.2)) =
            0x22 :: ((escapeStr k ++ [0x22] ++ 0x3A :: jxWrite wf v1) ++
              ((tail.map (fun kv =>
                strLit kv.1 ++ 0x3A :: jxWrite wf kv.2)).map
                (fun q => 0x2C :: q)).flatten) := by
          rw [List.map_cons, commaSep_flatten]
          unfold strLit
          simp [List.append_assoc]
        have hsplit : commaSep (((k, v1) :: tail).map (fun kv =>
            strLit kv.1 ++ 0x3A :: jxWrite wf kv.2)) ++ 0x7D :: rest =
            0x22 :: (((escapeStr k ++ [0x22] ++ 0x3A :: jxWrite wf v1) ++
              ((tail.map (fun kv =>
                strLit kv.1 ++ 0x3A :: jxWrite wf kv.2)).map
                (fun q => 0x2C :: q)).flatten) ++ 0x7D :: rest) := by
          rw [hcs, List.cons_append]
        unfold stepVal
        dsimp only
        rw [if_neg (by omega), if_pos rfl]
        nth_rewrite 1 [hsplit]
        dsimp only
        rw [if_neg (by omega)]
        rw [Hf ((k, v1) :: tail) hsz (List.cons_ne_nil _ _) g rest
          (by omega) hnd]

/-- `JSON.parse` inverts `JSON.stringify` on every JSON value. -/
theorem jsonParse_jxStringify (v : Jx) :
    jsonParse (jxStringify v) = some v := by
  have h := parse_jxWrite (jxSize v) v (le_refl _)
    (2 * (jxStringify v).length + 2) [] (by unfold jxStringify; omega)
    trivial
  rw [List.append_nil] at h
  unfold jsonParse jxStringify
  unfold jxStringify at h
  rw [h]
  rfl

/-! ## Protocol data model

`src/bin/protocol.types.ts` and `src/bin/protocol.enums.ts`.
Content types (`EQSocketProtocolContentType`): UNDEFINED = 0, NULL = 1,
BOOLEAN = 2, NUMBER = 3, STRING = 4, JSON = 5, BUFFER = 6.

Modelled from the spec: the `EQSocketProtocolContentEncoding` enum is not
among the provided sources (only its import and uses are); following the
spec's wire-format section ("0=none/raw, 1=primary, 2=secondary") it is
RAW = 0, GZIP = 1, DEFLATE = 2.

A runtime payload value (`TQSocketProtocolPayloadData`).  A JS number is its
64-bit big-endian IEEE-754 bit pattern; a JSON-compatible object is a `Jx`;
a `Buffer`/`Uint8Array` is its byte list. -/

inductive JsVal where
  | undef : JsVal
  | vnull : JsVal
  | vbool : Bool → JsVal
  | vnum : Nat → JsVal
  | vstr : List Nat → JsVal
  | vjson : Jx → JsVal
  | vbuf : List Nat → JsVal

/-- `TQSocketProtocolCompressor`: the injected compression capability, one
pure function per operation (the `async` wrapper carries no state). -/
structure Compressor where
  toGzip : List Nat → List Nat
  fromGzip : List Nat → List Nat
  toDeflate : List Nat → List Nat
  fromDeflate : List Nat → List Nat

/-- The `QSocketProtocol` instance state: constructor arguments
`compressor?` and `maxUncompressedSize`. -/
structure Protocol where
  compressor : Option Compressor
  maxUncompressedSize : Nat

/-- `IQSocketProtocolPayload`: data, Content-Type tag, Content-Encoding
tag. -/
structure Payload where
  data : JsVal
  contentType : Nat
  contentEncoding : Nat

/-- `IQSocketProtocolChunk`.  The runtime value of `meta` is whatever
`JSON.parse` produced (the TS type is not enforced at runtime), so the
model carries a JSON value. -/
structure Chunk where
  meta : Jx
  payload : Payload

/-- The NaN bit patterns (exponent all ones, nonzero mantissa). -/
def isNaNBits (bits : Nat) : Bool :=
  decide (bits / 2 ^ 52 % 2 ^ 11 = 2047 ∧ bits % 2 ^ 52 ≠ 0)

/-- The canonical NaN a JS engine materialises. -/
def nanBitsCanonical : Nat := 0x7FF8000000000000

/-- Bit pattern of the double `1.0`. -/
def oneBits : Nat := 0x3FF0000000000000

/-- JS truthiness of a JSON value (`ToBoolean`). -/
def jxTruthy : Jx → Bool
  | .jnull => false
  | .jbool b => b
  | .jnum i => decide (i ≠ 0)
  | .jstr s => decide (s ≠ [])
  | .jarr _ => true
  | .jobj _ => true

/-- JS truthiness of a payload value (`data ? 1 : 0` in the source):
`undefined`, `null`, `false`, `±0`, `NaN` and the empty string are falsy;
objects and buffers are truthy. -/
def jsTruthy : JsVal → Bool
  | .undef => false
  | .vnull => false
  | .vbool b => b
  | .vnum bits =>
    !(decide (bits = 0) || decide (bits = 2 ^ 63) || isNaNBits bits)
  | .vstr s => decide (s ≠ [])
  | .vjson j => jxTruthy j
  | .vbuf _ => true

/-- The encoder's meta check `!chunk.meta || typeof chunk.meta !== 'object'`:
among JSON values, `typeof` is `'object'` exactly for `null`, arrays and
objects; `null` is falsy and rejected by the first disjunct, so arrays and
objects pass and every other value is rejected. -/
def metaOk : Jx → Bool
  | .jarr _ => true
  | .jobj _ => true
  | _ => false

/-- `data as number` under `writeDoubleBE` applies `ToNumber`.  Exact for
numbers, booleans, `null` and `undefined`; strings and objects are
approximated by NaN (the codec's type contract never sends them under the
NUMBER tag, and no claim depends on that corner). -/
def jsAsNumberBits : JsVal → Nat
  | .vnum bits => bits
  | .vnull => 0
  | .vbool b => if b then oneBits else 0
  | .vstr s => if s = [] then 0 else nanBitsCanonical
  | .undef => nanBitsCanonical
  | .vjson _ => nanBitsCanonical
  | .vbuf _ => nanBitsCanonical

/-- `data as string` under `TextEncoder.encode` applies `ToString`.  Exact
for strings and the primitive literals; numbers, objects and buffers are
approximated by the empty string (never sent under the STRING tag by the
type contract, and no claim depends on them). -/
def jsAsString : JsVal → List Nat
  | .vstr s => s
  | .undef => [117, 110, 100, 101, 102, 105, 110, 101, 100]
  | .vnull => [110, 117, 108, 108]
  | .vbool b => if b then [116, 114, 117, 101] else [102, 97, 108, 115, 101]
  | .vnum _ => []
  | .vjson _ => []
  | .vbuf _ => []

/-- `JSON.stringify(data)` for the JSON content type.  Exact for
JSON-compatible values, strings, booleans and `null`; `undefined`
stringifies to no value, which `encodeString` then coerces to the text
`undefined`; number printing and `Buffer` objects are approximated (never
produced by the type contract, and no claim depends on them). -/
def jsJsonStringify : JsVal → List Nat
  | .vjson j => jxStringify j
  | .vnull => jxStringify .jnull
  | .vbool b => jxStringify (.jbool b)
  | .vstr s => jxStringify (.jstr s)
  | .undef => [117, 110, 100, 101, 102, 105, 110, 101, 100]
  | .vnum _ => jxStringify .jnull
  | .vbuf _ => jxStringify .jnull

/-- `ToUint8` of one iterated element in the typed-array constructor
(`ToNumber` then modulo 256); nested arrays and objects are approximated
by 0. -/
def jxToByte : Jx → Nat
  | .jnum i => (i % 256).toNat
  | .jbool b => if b then 1 else 0
  | .jnull => 0
  | .jstr s =>
    if s ≠ [] ∧ (∀ c ∈ s, isDigit c = true) then digitsVal s % 256 else 0
  | .jarr _ => 0
  | .jobj _ => 0

/-- `ToIndex` applied to the numeric value of a 64-bit float bit pattern
(the length overload of the `Uint8Array` constructor): the value
truncates toward zero (NaN and `-0` to 0); an infinity, a value
truncating to a negative integer, or one of `2 ^ 53` or more is a
RangeError (`none`). -/
def f64ToIndex (bits : Nat) : Option Nat :=
  let s := bits / 2 ^ 63
  let e := bits / 2 ^ 52 % 2 ^ 11
  let m := bits % 2 ^ 52
  if e = 2047 then (if m ≠ 0 then some 0 else none)
  else
    let n :=
      if e < 1023 then 0
      else if e ≤ 1075 then (2 ^ 52 + m) / 2 ^ (1075 - e)
      else (2 ^ 52 + m) * 2 ^ (e - 1075)
    if s = 1 ∧ n ≠ 0 then none
    else if n < 2 ^ 53 then some n
    else none

/-- `new Uint8Array(string)`: `ToNumber` of the string then `ToIndex`.
A string of decimal digits parses to that many zero bytes (RangeError
past `2 ^ 53 - 1`); the empty string is 0.  Approximated (no theorem
relies on it): any other string — signed, fractional, exponent, hex or
padded forms — is treated as NaN, hence 0. -/
def strUint8Array (s : List Nat) : Option (List Nat) :=
  if s ≠ [] ∧ (∀ c ∈ s, isDigit c = true) then
    if digitsVal s < 2 ^ 53 then some (List.replicate (digitsVal s) 0)
    else none
  else some []

/-- `new Uint8Array(data)` on a non-buffer value.  A non-object argument
is a length: `ToIndex` of its numeric value yields that many zero bytes
or throws a RangeError (`none`) — so `undefined`, `null`, `false` and
NaN give the empty buffer, `true` one zero byte, a nonnegative number
that many zero bytes, and a negative number or infinity throws.  A JSON
array takes the iterable path, one `ToUint8`-coerced byte per element;
a JSON object is array-like.  Approximated (no theorem relies on these
branches): non-decimal strings are NaN, element coercion is `jxToByte`,
and an object's own `length` property is ignored (empty buffer). -/
def newUint8Array : JsVal → Option (List Nat)
  | .vbuf b => some b
  | .undef => some []
  | .vnull => some []
  | .vbool b => some (if b then [0] else [])
  | .vnum bits => (f64ToIndex bits).map (fun n => List.replicate n 0)
  | .vstr s => strUint8Array s
  | .vjson (.jarr l) => some (l.map jxToByte)
  | .vjson (.jnum i) =>
    if i < 0 then none
    else if i.toNat < 2 ^ 53 then some (List.replicate i.toNat 0)
    else none
  | .vjson (.jstr s) => strUint8Array s
  | .vjson (.jbool b) => some (if b then [0] else [])
  | .vjson .jnull => some []
  | .vjson (.jobj _) => some []

/-! ## Payload codec (`encodePayloadData` / `decodePayloadData`) -/

/-- `QSocketProtocol.encodePayloadData`: switch on the content-type tag;
the default case throws (`Unknown content type`). -/
def encodePayloadData (data : JsVal) (contentType : Nat) :
    Option (List Nat) :=
  if contentType = 0 then some []
  else if contentType = 1 then some []
  else if contentType = 2 then
    some (writeUInt8 (if jsTruthy data then 1 else 0))
  else if contentType = 3 then some (writeDouble (jsAsNumberBits data))
  else if contentType = 4 then some (encodeString (jsAsString data))
  else if contentType = 5 then some (encodeString (jsJsonStringify data))
  else if contentType = 6 then
    match data with
    | .vbuf b => some b
    | d => newUint8Array d
  else none

/-- `QSocketProtocol.decodePayloadData`: switch on the content-type tag;
BOOLEAN reads `buffer[0]` unguarded (`undefined !== 0` is `true` on an
empty buffer), NUMBER throws on fewer than eight bytes, JSON throws on
unparsable text; the default case throws (`Unknown content type`). -/
def decodePayloadData (buffer : List Nat) (contentType : Nat) :
    Option JsVal :=
  if contentType = 0 then some .undef
  else if contentType = 1 then some .vnull
  else if contentType = 2 then
    some (.vbool (match readUInt8 buffer 0 with
      | some 0 => false
      | _ => true))
  else if contentType = 3 then (readDouble buffer 0).map .vnum
  else if contentType = 4 then some (.vstr (utf8Decode buffer))
  else if contentType = 5 then (jsonParse (utf8Decode buffer)).map .vjson
  else if contentType = 6 then some (.vbuf buffer)
  else none

/-! ## Chunk codec (`encodeChunk` / `decodeChunk`) -/

/-- `QSocketProtocol.encodeChunk`: reject a falsy or non-object meta,
serialize meta as JSON text, encode the payload, apply the per-payload
Content-Encoding (requiring the compressor for GZIP/DEFLATE, rejecting an
unknown tag), then emit `metaLength(4) ‖ meta ‖ payloadLength(4) ‖
contentType(1) ‖ contentEncoding(1) ‖ payload`. -/
def encodeChunk (p : Protocol) (c : Chunk) : Option (List Nat) :=
  if metaOk c.meta = false then none
  else
    match encodePayloadData c.payload.data c.payload.contentType with
    | none => none
    | some dataBuffer =>
      match
        (if c.payload.contentEncoding = 1 then
          match p.compressor with
          | some comp => some (comp.toGzip dataBuffer)
          | none => none
        else if c.payload.contentEncoding = 2 then
          match p.compressor with
          | some comp => some (comp.toDeflate dataBuffer)
          | none => none
        else if c.payload.contentEncoding = 0 then some dataBuffer
        else none : Option (List Nat))
      with
      | none => none
      | some payloadBuffer =>
        some (writeUInt32 (encodeString (jxStringify c.meta)).length ++
          encodeString (jxStringify c.meta) ++
          writeUInt32 payloadBuffer.length ++
          writeUInt8 c.payload.contentType ++
          writeUInt8 c.payload.contentEncoding ++ payloadBuffer)

/-- `QSocketProtocol.decodeChunk`: read `metaLength`, the meta bytes
(UTF-8 JSON), `payloadLength`, the content-type and content-encoding
bytes, then the payload bytes; undo the per-payload encoding and decode
the payload.  Every length check of the source appears in order; any
failure is a thrown error (`none`). -/
def decodeChunk (p : Protocol) (cb : List Nat) : Option Chunk :=
  if cb.length < 4 then none
  else if cb.length < 4 + readUInt32 cb 0 then none
  else
    match jsonParse (utf8Decode ((cb.drop 4).take (readUInt32 cb 0))) with
    | none => none
    | some meta =>
      if cb.length < 4 + readUInt32 cb 0 + 4 then none
      else if cb.length < 4 + readUInt32 cb 0 + 4 + 2 then none
      else if cb.length < 4 + readUInt32 cb 0 + 6 +
          readUInt32 cb (4 + readUInt32 cb 0) then none
      else
        match
          (if readByteD cb (4 + readUInt32 cb 0 + 5) = 1 then
            match p.compressor with
            | some comp =>
              some (comp.fromGzip ((cb.drop (4 + readUInt32 cb 0 + 6)).take
                (readUInt32 cb (4 + readUInt32 cb 0))))
            | none => none
          else if readByteD cb (4 + readUInt32 cb 0 + 5) = 2 then
            match p.compressor with
            | some comp =>
              some (comp.fromDeflate ((cb.drop (4 + readUInt32 cb 0 + 6)).take
                (readUInt32 cb (4 + readUInt32 cb 0))))
            | none => none
          else if readByteD cb (4 + readUInt32 cb 0 + 5) = 0 then
            some ((cb.drop (4 + readUInt32 cb 0 + 6)).take
              (readUInt32 cb (4 + readUInt32 cb 0)))
          else none : Option (List Nat))
        with
        | none => none
        | some dataBuffer =>
          match decodePayloadData dataBuffer
              (readByteD cb (4 + readUInt32 cb 0 + 4)) with
          | none => none
          | some data =>
            some ⟨meta, ⟨data, readByteD cb (4 + readUInt32 cb 0 + 4),
              readByteD cb (4 + readUInt32 cb 0 + 5)⟩⟩

/-! ## Message codec (`to` / `from`) -/

/-- The chunk loop of `to`: encode each chunk and prefix it with its
4-byte length, concatenating the framed blocks in order. -/
def encodeAllChunks (p : Protocol) : List Chunk → Option (List Nat)
  | [] => some []
  | c :: cs =>
    match encodeChunk p c, encodeAllChunks p cs with
    | some cb, some rest => some (writeUInt32 cb.length ++ cb ++ rest)
    | _, _ => none

/-- `QSocketProtocol.to`: frame all chunks, compress the concatenation
when a compressor is configured and it exceeds `maxUncompressedSize`
(flag 1, format GZIP = 1), and prepend the 10-byte header
`flag(1) ‖ format(1) ‖ uncompressedLength(4) ‖ compressedLength(4)`. -/
def «to» (p : Protocol) (message : List Chunk) : Option (List Nat) :=
  match encodeAllChunks p message with
  | none => none
  | some messageData =>
    match p.compressor with
    | some comp =>
      if p.maxUncompressedSize < messageData.length then
        some (writeUInt8 1 ++ writeUInt8 1 ++
          writeUInt32 messageData.length ++
          writeUInt32 (comp.toGzip messageData).length ++
          comp.toGzip messageData)
      else
        some (writeUInt8 0 ++ writeUInt8 0 ++
          writeUInt32 messageData.length ++
          writeUInt32 messageData.length ++ messageData)
    | none =>
      some (writeUInt8 0 ++ writeUInt8 0 ++
        writeUInt32 messageData.length ++
        writeUInt32 messageData.length ++ messageData)

/-- The chunk loop of `from` (fuel-driven; every iteration consumes at
least the 4-byte length prefix, so fuel `length + 1` always suffices):
read a 4-byte chunk length, check it, decode the block, repeat until the
data is exactly consumed. -/
def parseChunksF (p : Protocol) : Nat → List Nat → Option (List Chunk)
  | 0, _ => none
  | f + 1, d =>
    if d.length = 0 then some []
    else if d.length < 4 then none
    else if d.length - 4 < readUInt32 d 0 then none
    else
      match decodeChunk p ((d.drop 4).take (readUInt32 d 0)) with
      | none => none
      | some c =>
        match parseChunksF p f (d.drop (4 + readUInt32 d 0)) with
        | none => none
        | some cs => some (c :: cs)

/-- The chunk loop of `from`. -/
def parseChunks (p : Protocol) (d : List Nat) : Option (List Chunk) :=
  parseChunksF p (d.length + 1) d

/-- `QSocketProtocol.from`: require the 10-byte header, read it, require
the declared compressed length to be available, decompress when the flag
byte equals 1 (requiring a compressor and a known format, and checking
the decompressed length), otherwise require the data length to equal the
declared uncompressed length, then run the chunk loop. -/
def «from» (p : Protocol) (buffer : List Nat) : Option (List Chunk) :=
  if buffer.length < 10 then none
  else if buffer.length < 10 + readUInt32 buffer 6 then none
  else if ((buffer.drop 10).take (readUInt32 buffer 6)).length ≠
      readUInt32 buffer 6 then none
  else if readByteD buffer 0 = 1 then
    match p.compressor with
    | none => none
    | some comp =>
      match
        (if readByteD buffer 1 = 1 then
          some (comp.fromGzip ((buffer.drop 10).take (readUInt32 buffer 6)))
        else if readByteD buffer 1 = 2 then
          some (comp.fromDeflate
            ((buffer.drop 10).take (readUInt32 buffer 6)))
        else none : Option (List Nat))
      with
      | none => none
      | some messageData =>
        if messageData.length ≠ readUInt32 buffer 2 then none
        else parseChunks p messageData
  else
    if ((buffer.drop 10).take (readUInt32 buffer 6)).length ≠
        readUInt32 buffer 2 then none
    else parseChunks p ((buffer.drop 10).take (readUInt32 buffer 6))

example : «from» ⟨none, 10240⟩ [0, 0, 0, 0, 0, 0, 0, 0, 0, 0] = some [] :=
  rfl
example : decodeChunk ⟨none, 10240⟩
    [0, 0, 0, 2, 123, 125, 0, 0, 0, 0, 2, 0] =
    some ⟨.jobj [], ⟨.vbool true, 2, 0⟩⟩ := rfl
example : («to» ⟨none, 10240⟩
    [⟨.jobj [], ⟨.undef, 0, 0⟩⟩]).bind («from» ⟨none, 10240⟩) =
    some [⟨.jobj [], ⟨.undef, 0, 0⟩⟩] := rfl

/-! ## Validity of messages (the encoder's input contract)

`dataOk` is the caller-side invariant the spec states for payloads
("`content_type` must agree with the runtime type of `data`"), together
with representability: number bit patterns fit 64 bits, strings are scalar
sequences, buffer bytes are bytes. -/

def scalarsOk (l : List Nat) : Prop := ∀ c ∈ l, validScalar c

instance (l : List Nat) : Decidable (scalarsOk l) := by
  unfold scalarsOk
  infer_instance

def dataOk : Nat → JsVal → Prop
  | 0, .undef => True
  | 1, .vnull => True
  | 2, .vbool _ => True
  | 3, .vnum bits => bits < 2 ^ 64
  | 4, .vstr s => scalarsOk s
  | 5, .vjson j => scalarsOk (jxStringify j)
  | 6, .vbuf b => ∀ x ∈ b, x < 256
  | _, _ => False

def typeKey : List Nat := [116, 121, 112, 101]

def uuidKey : List Nat := [117, 117, 105, 100]

def namespaceKey : List Nat := [110, 97, 109, 101, 115, 112, 97, 99, 101]

def eventKey : List Nat := [101, 118, 101, 110, 116]

/-- The three meta variants of `protocol.types.ts` as JSON objects:
`Data { type: 0, uuid, namespace, event }`,
`Control { type: 1, uuid, namespace }`, `Ack { type: 2, uuid }`. -/
def metaVariant (m : Jx) : Prop :=
  (∃ u ns ev, m = .jobj [(typeKey, .jnum 0), (uuidKey, .jstr u),
    (namespaceKey, .jstr ns), (eventKey, .jstr ev)]) ∨
  (∃ u ns, m = .jobj [(typeKey, .jnum 1), (uuidKey, .jstr u),
    (namespaceKey, .jstr ns)]) ∨
  (∃ u, m = .jobj [(typeKey, .jnum 2), (uuidKey, .jstr u)])

/-- A chunk the encoder's contract covers: one of the three meta variants
(with representable strings), RAW payload encoding, and payload data
agreeing with the content-type tag. -/
def ValidChunk (c : Chunk) : Prop :=
  metaVariant c.meta ∧ scalarsOk (jxStringify c.meta) ∧
    c.payload.contentEncoding = 0 ∧
    dataOk c.payload.contentType c.payload.data

def ValidMessage (m : List Chunk) : Prop := m ≠ [] ∧ ∀ c ∈ m, ValidChunk c

theorem readDouble_writeDouble (bits : Nat) (h : bits < 2 ^ 64) :
    readDouble (writeDouble bits) 0 = some bits := by
  unfold readDouble writeDouble
  rw [if_neg (by simp)]
  simp only [readByteD, List.getD_cons_zero, List.getD_cons_succ]
  congr 1
  omega

theorem dataOk_ct_le {ct : Nat} {d : JsVal} (h : dataOk ct d) : ct ≤ 6 := by
  by_contra hx
  obtain ⟨n, rfl⟩ : ∃ n, ct = n + 7 := ⟨ct - 7, by omega⟩
  cases d <;> exact h

/-- Payload round trip under the contract: encoding succeeds and decoding
the produced bytes restores the value. -/
theorem payload_roundtrip (data : JsVal) (ct : Nat) (h : dataOk ct data) :
    ∃ db, encodePayloadData data ct = some db ∧
      decodePayloadData db ct = some data := by
  rcases ct with _ | _ | _ | _ | _ | _ | _ | n
  · cases data <;> try exact h.elim
    exact ⟨[], rfl, rfl⟩
  · cases data <;> try exact h.elim
    exact ⟨[], rfl, rfl⟩
  · cases data <;> try exact h.elim
    rename_i b
    cases b
    · exact ⟨[0], rfl, rfl⟩
    · exact ⟨[1], rfl, rfl⟩
  · cases data <;> try exact h.elim
    rename_i bits
    refine ⟨writeDouble bits, rfl, ?_⟩
    show (readDouble (writeDouble bits) 0).map JsVal.vnum =
      some (.vnum bits)
    rw [readDouble_writeDouble bits h]
    rfl
  · cases data <;> try exact h.elim
    rename_i s
    refine ⟨encodeString s, rfl, ?_⟩
    show some (JsVal.vstr (utf8Decode (encodeString s))) =
      some (.vstr s)
    rw [utf8Decode_encodeString s h]
  · cases data <;> try exact h.elim
    rename_i j
    refine ⟨encodeString (jxStringify j), rfl, ?_⟩
    show (jsonParse (utf8Decode (encodeString (jxStringify j)))).map
      JsVal.vjson = some (.vjson j)
    rw [utf8Decode_encodeString _ h, jsonParse_jxStringify]
    rfl
  · cases data <;> try exact h.elim
    rename_i b
    exact ⟨b, rfl, rfl⟩
  · cases data <;> exact h.elim

/-- Reading one encoded chunk block (RAW payload encoding): `decodeChunk`
reads, in this order, the 4-byte meta length, the meta bytes (UTF-8 JSON),
the 4-byte payload length, the content-type byte, the content-encoding
byte, and the payload bytes. -/
theorem decodeChunk_raw_layout (p : Protocol) (mb pb : List Nat) (ct : Nat)
    (hml : mb.length < 2 ^ 32) (hpl : pb.length < 2 ^ 32)
    (_hct : ct < 256) :
    decodeChunk p (writeUInt32 mb.length ++ (mb ++ (writeUInt32 pb.length ++
      ct :: 0 :: pb))) =
      match jsonParse (utf8Decode mb) with
      | none => none
      | some meta =>
        match decodePayloadData pb ct with
        | none => none
        | some data => some ⟨meta, ⟨data, ct, 0⟩⟩ := by
  set L := writeUInt32 mb.length ++ (mb ++ (writeUInt32 pb.length ++
    ct :: 0 :: pb)) with hL
  have hlen : L.length = mb.length + pb.length + 10 := by
    rw [hL]
    simp only [List.length_append, List.length_cons, length_writeUInt32]
    omega
  have h0 : readUInt32 L 0 = mb.length := by
    rw [hL]
    exact readUInt32_here _ _ hml
  have hpre2 : (writeUInt32 mb.length ++ mb).length = 4 + mb.length := by
    simp only [List.length_append, length_writeUInt32]
  have hassoc : L = (writeUInt32 mb.length ++ mb) ++
      (writeUInt32 pb.length ++ ct :: 0 :: pb) := by
    rw [hL, List.append_assoc]
  have h1 : readUInt32 L (4 + mb.length) = pb.length := by
    rw [hassoc, ← hpre2]
    exact readUInt32_append _ _ _ hpl
  have hpre3 : ((writeUInt32 mb.length ++ mb) ++
      writeUInt32 pb.length).length = 4 + mb.length + 4 := by
    simp only [List.length_append, length_writeUInt32]
  have hassoc3 : L = ((writeUInt32 mb.length ++ mb) ++
      writeUInt32 pb.length) ++ (ct :: 0 :: pb) := by
    rw [hL]
    simp [List.append_assoc]
  have hct0 : readByteD L (4 + mb.length + 4) = ct := by
    rw [hassoc3, ← hpre3]
    have hr := readByteD_append_right ((writeUInt32 mb.length ++ mb) ++
      writeUInt32 pb.length) (ct :: 0 :: pb) 0
    simp only [Nat.add_zero] at hr
    rw [hr]
    simp [readByteD]
  have hce0 : readByteD L (4 + mb.length + 5) = 0 := by
    rw [hassoc3]
    rw [show 4 + mb.length + 5 = ((writeUInt32 mb.length ++ mb) ++
      writeUInt32 pb.length).length + 1 from by rw [hpre3]]
    rw [readByteD_append_right]
    simp [readByteD]
  have hdrop4 : L.drop 4 = mb ++ (writeUInt32 pb.length ++
      ct :: 0 :: pb) := by
    rw [hL, show (4 : Nat) = (writeUInt32 mb.length).length from rfl,
      List.drop_left]
  have hmb : (L.drop 4).take mb.length = mb := by
    rw [hdrop4, List.take_left]
  have hassoc4 : L = (((writeUInt32 mb.length ++ mb) ++
      writeUInt32 pb.length) ++ [ct, 0]) ++ pb := by
    rw [hL]
    simp [List.append_assoc]
  have hdropP : L.drop (4 + mb.length + 6) = pb := by
    rw [hassoc4]
    rw [show 4 + mb.length + 6 = ((((writeUInt32 mb.length ++ mb) ++
      writeUInt32 pb.length) ++ [ct, 0])).length from by
      simp only [List.length_append, List.length_cons, List.length_nil,
        length_writeUInt32]]
    rw [List.drop_left]
  have hpb : (L.drop (4 + mb.length + 6)).take pb.length = pb := by
    rw [hdropP, List.take_length]
  unfold decodeChunk
  rw [h0, hmb, if_neg (by omega), if_neg (by omega)]
  cases hjp : jsonParse (utf8Decode mb) with
  | none => rfl
  | some meta =>
    dsimp only
    rw [h1, hct0, hce0]
    rw [if_neg (by omega), if_neg (by omega), if_neg (by omega)]
    rw [if_neg (by omega), if_neg (by omega), if_pos rfl]
    rw [hpb]

/-- Chunk round trip for a chunk the contract covers: encoding succeeds
and decoding the block restores the chunk. -/
theorem chunk_roundtrip (p : Protocol) (c : Chunk) (h : ValidChunk c)
    (hml : (encodeString (jxStringify c.meta)).length < 2 ^ 32)
    (hdl : ∀ db, encodePayloadData c.payload.data c.payload.contentType =
      some db → db.length < 2 ^ 32) :
    ∃ cb, encodeChunk p c = some cb ∧ decodeChunk p cb = some c := by
  obtain ⟨hmv, hsc, hce, hdo⟩ := h
  have hct6 : c.payload.contentType ≤ 6 := dataOk_ct_le hdo
  obtain ⟨db, hdb, hdec⟩ := payload_roundtrip _ _ hdo
  have hmok : metaOk c.meta = true := by
    rcases hmv with ⟨u, ns, ev, hm⟩ | ⟨u, ns, hm⟩ | ⟨u, hm⟩ <;>
      rw [hm] <;> rfl
  have hbyte : writeUInt8 c.payload.contentType =
      [c.payload.contentType] := by
    unfold writeUInt8
    rw [Nat.mod_eq_of_lt (by omega)]
  have henc : encodeChunk p c =
      some (writeUInt32 (encodeString (jxStringify c.meta)).length ++
        (encodeString (jxStringify c.meta) ++
          (writeUInt32 db.length ++
            c.payload.contentType :: 0 :: db))) := by
    unfold encodeChunk
    rw [hmok, if_neg (by simp), hdb]
    dsimp only
    rw [hce]
    rw [if_neg (by omega), if_neg (by omega), if_pos rfl]
    dsimp only
    rw [hbyte, show writeUInt8 0 = [0] from rfl]
    simp [List.append_assoc]
  refine ⟨_, henc, ?_⟩
  rw [decodeChunk_raw_layout p _ db c.payload.contentType hml
    (hdl db hdb) (by omega)]
  rw [utf8Decode_encodeString _ hsc, jsonParse_jxStringify]
  dsimp only
  rw [hdec]
  dsimp only
  rw [← hce]

theorem parseChunksF_succ (p : Protocol) (f : Nat) (d : List Nat) :
    parseChunksF p (f + 1) d =
      if d.length = 0 then some []
      else if d.length < 4 then none
      else if d.length - 4 < readUInt32 d 0 then none
      else
        match decodeChunk p ((d.drop 4).take (readUInt32 d 0)) with
        | none => none
        | some c =>
          match parseChunksF p f (d.drop (4 + readUInt32 d 0)) with
          | none => none
          | some cs => some (c :: cs) := rfl

theorem parseChunksF_irrel (p : Protocol) : ∀ f g d, d.length < f →
    d.length < g → parseChunksF p f d = parseChunksF p g d := by
  intro f
  induction f with
  | zero => intro g d h; omega
  | succ f ih =>
    intro g d hf hg
    obtain ⟨g, rfl⟩ : ∃ g2, g = g2 + 1 := ⟨g - 1, by omega⟩
    rw [parseChunksF_succ, parseChunksF_succ]
    by_cases h0 : d.length = 0
    · rw [if_pos h0, if_pos h0]
    rw [if_neg h0, if_neg h0]
    by_cases h4 : d.length < 4
    · rw [if_pos h4, if_pos h4]
    rw [if_neg h4, if_neg h4]
    by_cases hcl : d.length - 4 < readUInt32 d 0
    · rw [if_pos hcl, if_pos hcl]
    rw [if_neg hcl, if_neg hcl]
    cases hdc : decodeChunk p ((d.drop 4).take (readUInt32 d 0)) with
    | none => rfl
    | some c =>
      have hdl : (d.drop (4 + readUInt32 d 0)).length < f := by
        rw [List.length_drop]
        omega
      have hdg : (d.drop (4 + readUInt32 d 0)).length < g := by
        rw [List.length_drop]
        omega
      rw [ih g (d.drop (4 + readUInt32 d 0)) hdl hdg]

/-- The chunk loop consumes one framed block: a 4-byte length prefix, the
block of exactly that length, then the remainder. -/
theorem parseChunks_block (p : Protocol) (cb rest : List Nat)
    (hcb : cb.length < 2 ^ 32) :
    parseChunks p (writeUInt32 cb.length ++ (cb ++ rest)) =
      match decodeChunk p cb with
      | none => none
      | some c =>
        match parseChunks p rest with
        | none => none
        | some cs => some (c :: cs) := by
  set L := writeUInt32 cb.length ++ (cb ++ rest) with hL
  have hlen : L.length = cb.length + rest.length + 4 := by
    rw [hL]
    simp only [List.length_append, length_writeUInt32]
    omega
  have h0 : readUInt32 L 0 = cb.length := by
    rw [hL]
    exact readUInt32_here _ _ hcb
  have hdrop4 : L.drop 4 = cb ++ rest := by
    rw [hL, show (4 : Nat) = (writeUInt32 cb.length).length from rfl,
      List.drop_left]
  have hcbeq : (L.drop 4).take cb.length = cb := by
    rw [hdrop4, List.take_left]
  have hassoc : L = (writeUInt32 cb.length ++ cb) ++ rest := by
    rw [hL, List.append_assoc]
  have hdropB : L.drop (4 + cb.length) = rest := by
    rw [hassoc]
    rw [show 4 + cb.length = (writeUInt32 cb.length ++ cb).length from by
      simp only [List.length_append, length_writeUInt32]]
    rw [List.drop_left]
  show parseChunksF p (L.length + 1) L = _
  rw [parseChunksF_succ]
  rw [h0, hcbeq]
  rw [if_neg (by omega), if_neg (by omega), if_neg (by omega)]
  cases hdc : decodeChunk p cb with
  | none => rfl
  | some c =>
    dsimp only
    rw [hdropB]
    rw [parseChunksF_irrel p L.length (rest.length + 1) rest (by omega)
      (by omega)]
    rfl

/-- A produced chunk block bounds the meta and payload byte lengths it
carries (used to transfer the whole-message length bound down to the
components). -/
theorem encodeChunk_le (p : Protocol) (c : Chunk) (cb : List Nat)
    (hce : c.payload.contentEncoding = 0)
    (he : encodeChunk p c = some cb) :
    (encodeString (jxStringify c.meta)).length ≤ cb.length ∧
      ∀ db, encodePayloadData c.payload.data c.payload.contentType =
        some db → db.length ≤ cb.length := by
  unfold encodeChunk at he
  by_cases hm : metaOk c.meta = false
  · rw [if_pos hm] at he
    exact absurd he (by simp)
  rw [if_neg hm] at he
  cases hpd : encodePayloadData c.payload.data c.payload.contentType with
  | none =>
    rw [hpd] at he
    exact absurd he (by simp)
  | some db0 =>
    rw [hpd] at he
    dsimp only at he
    rw [hce, if_neg (by omega), if_neg (by omega), if_pos rfl] at he
    dsimp only at he
    have hcb := (Option.some.inj he).symm
    constructor
    · rw [hcb]
      simp only [List.length_append]
      omega
    · intro db hdb
      have hdd : db = db0 := (Option.some.inj hdb).symm
      subst hdd
      rw [hcb]
      simp only [List.length_append]
      omega

/-- Under the contract, chunk encoding always succeeds. -/
theorem encodeChunk_some (p : Protocol) (c : Chunk) (h : ValidChunk c) :
    ∃ cb, encodeChunk p c = some cb := by
  obtain ⟨hmv, hsc, hce, hdo⟩ := h
  obtain ⟨db, hdb, _⟩ := payload_roundtrip _ _ hdo
  have hmok : metaOk c.meta = true := by
    rcases hmv with ⟨u, ns, ev, hm⟩ | ⟨u, ns, hm⟩ | ⟨u, hm⟩ <;>
      rw [hm] <;> rfl
  refine ⟨writeUInt32 (encodeString (jxStringify c.meta)).length ++
    encodeString (jxStringify c.meta) ++ writeUInt32 db.length ++
    writeUInt8 c.payload.contentType ++
    writeUInt8 c.payload.contentEncoding ++ db, ?_⟩
  unfold encodeChunk
  rw [hmok, if_neg (by simp), hdb]
  dsimp only
  rw [hce]
  rw [if_neg (by omega), if_neg (by omega), if_pos rfl]

/-- Under the contract, message framing always succeeds. -/
theorem encodeAllChunks_some (p : Protocol) : ∀ (m : List Chunk),
    (∀ c ∈ m, ValidChunk c) → ∃ md, encodeAllChunks p m = some md := by
  intro m
  induction m with
  | nil => exact fun _ => ⟨[], rfl⟩
  | cons c cs ih =>
    intro hv
    obtain ⟨cb, hcb⟩ := encodeChunk_some p c (hv c (List.mem_cons_self _ _))
    obtain ⟨rest, hrest⟩ := ih (fun x hx => hv x (List.mem_cons_of_mem _ hx))
    refine ⟨writeUInt32 cb.length ++ cb ++ rest, ?_⟩
    unfold encodeAllChunks
    rw [hcb, hrest]

/-- A chunk's RAW encoding does not depend on the protocol instance. -/
theorem encodeChunk_indep (p q : Protocol) (c : Chunk)
    (hce : c.payload.contentEncoding = 0) :
    encodeChunk p c = encodeChunk q c := by
  unfold encodeChunk
  by_cases hm : metaOk c.meta = false
  · rw [if_pos hm, if_pos hm]
  rw [if_neg hm, if_neg hm]
  cases hpd : encodePayloadData c.payload.data c.payload.contentType with
  | none => rfl
  | some db =>
    dsimp only
    rw [hce]
    simp

theorem encodeAllChunks_indep (p q : Protocol) : ∀ (m : List Chunk),
    (∀ c ∈ m, c.payload.contentEncoding = 0) →
    encodeAllChunks p m = encodeAllChunks q m := by
  intro m
  induction m with
  | nil => exact fun _ => rfl
  | cons c cs ih =>
    intro hv
    unfold encodeAllChunks
    rw [encodeChunk_indep p q c (hv c (List.mem_cons_self _ _)),
      ih (fun x hx => hv x (List.mem_cons_of_mem _ hx))]

/-- The chunk loop inverts the chunk framing of `to` on valid messages. -/
theorem parseChunks_encodeAll (p : Protocol) : ∀ (m : List Chunk)
    (md : List Nat), (∀ c ∈ m, ValidChunk c) →
    encodeAllChunks p m = some md → md.length < 2 ^ 32 →
    parseChunks p md = some m := by
  intro m
  induction m with
  | nil =>
    intro md _ he _
    have : md = [] := (Option.some.inj he).symm
    subst this
    rfl
  | cons c cs ih =>
    intro md hv he hlen
    have hc : ValidChunk c := hv c (List.mem_cons_self _ _)
    unfold encodeAllChunks at he
    cases hec : encodeChunk p c with
    | none =>
      rw [hec] at he
      exact absurd he (by simp)
    | some cb =>
      rw [hec] at he
      cases hea : encodeAllChunks p cs with
      | none =>
        rw [hea] at he
        exact absurd he (by simp)
      | some rest =>
        rw [hea] at he
        have hmd : md = writeUInt32 cb.length ++ (cb ++ rest) := by
          have := Option.some.inj he
          rw [← this]
          simp [List.append_assoc]
        subst hmd
        have hmdlen : cb.length + rest.length + 4 < 2 ^ 32 + 4 := by
          have : (writeUInt32 cb.length ++ (cb ++ rest)).length =
              cb.length + rest.length + 4 := by
            simp only [List.length_append, length_writeUInt32]
            omega
          omega
        obtain ⟨hmble, hdble⟩ := encodeChunk_le p c cb hc.2.2.1 hec
        obtain ⟨cb2, henc2, hdec2⟩ := chunk_roundtrip p c hc
          (by omega) (fun db hdb => by have := hdble db hdb; omega)
        have hcb2 : cb2 = cb := Option.some.inj (henc2.symm.trans hec)
        rw [hcb2] at hdec2
        rw [parseChunks_block p cb rest (by omega), hdec2]
        dsimp only
        rw [ih rest (fun x hx => hv x (List.mem_cons_of_mem _ hx)) hea
          (by omega)]

/-- Decoding an uncompressed message: the 10-byte header with flag 0 is
consumed and the chunk loop runs on the data. -/
theorem from_header_raw (p : Protocol) (md : List Nat)
    (hlen : md.length < 2 ^ 32) :
    «from» p (writeUInt8 0 ++ writeUInt8 0 ++ writeUInt32 md.length ++
      writeUInt32 md.length ++ md) = parseChunks p md := by
  set L := writeUInt8 0 ++ writeUInt8 0 ++ writeUInt32 md.length ++
    writeUInt32 md.length ++ md with hL
  have hform : L = [0, 0] ++ (writeUInt32 md.length ++
      (writeUInt32 md.length ++ md)) := by
    rw [hL, show writeUInt8 0 = [0] from rfl]
    simp [List.append_assoc]
  have hlen10 : L.length = md.length + 10 := by
    rw [hform]
    simp only [List.length_append, List.length_cons, List.length_nil,
      length_writeUInt32]
    omega
  have hf0 : readByteD L 0 = 0 := by
    rw [hform]
    rfl
  have hu : readUInt32 L 2 = md.length := by
    rw [hform, show (2 : Nat) = ([0, 0] : List Nat).length from rfl]
    exact readUInt32_append _ _ _ hlen
  have hc : readUInt32 L 6 = md.length := by
    rw [hform, ← List.append_assoc]
    rw [show (6 : Nat) = (([0, 0] : List Nat) ++
      writeUInt32 md.length).length from by
      simp only [List.length_append, List.length_cons, List.length_nil,
        length_writeUInt32]]
    exact readUInt32_append _ _ _ hlen
  have hdrop : L.drop 10 = md := by
    have hform2 : L = (([0, 0] ++ writeUInt32 md.length) ++
        writeUInt32 md.length) ++ md := by
      rw [hform]
      simp [List.append_assoc]
    rw [hform2]
    rw [show (10 : Nat) = ((([0, 0] ++ writeUInt32 md.length) ++
      writeUInt32 md.length) : List Nat).length from by
      simp only [List.length_append, List.length_cons, List.length_nil,
        length_writeUInt32]]
    rw [List.drop_left]
  unfold «from»
  rw [hf0, hu, hc, hdrop, List.take_length]
  rw [if_neg (by omega), if_neg (by omega), if_neg (by omega),
    if_neg (by omega), if_neg (by omega)]

/-- Decoding a compressed message: the 10-byte header with flag 1 and
format GZIP is consumed, the data is decompressed with the configured
compressor, its length is checked, and the chunk loop runs. -/
theorem from_header_gzip (comp : Compressor) (N : Nat) (md : List Nat)
    (hinv : comp.fromGzip (comp.toGzip md) = md)
    (hl1 : md.length < 2 ^ 32)
    (hl2 : (comp.toGzip md).length < 2 ^ 32) :
    «from» ⟨some comp, N⟩ (writeUInt8 1 ++ writeUInt8 1 ++
      writeUInt32 md.length ++ writeUInt32 (comp.toGzip md).length ++
      comp.toGzip md) = parseChunks ⟨some comp, N⟩ md := by
  set L := writeUInt8 1 ++ writeUInt8 1 ++ writeUInt32 md.length ++
    writeUInt32 (comp.toGzip md).length ++ comp.toGzip md with hL
  have hform : L = [1, 1] ++ (writeUInt32 md.length ++
      (writeUInt32 (comp.toGzip md).length ++ comp.toGzip md)) := by
    rw [hL, show writeUInt8 1 = [1] from rfl]
    simp [List.append_assoc]
  have hlen10 : L.length = (comp.toGzip md).length + 10 := by
    rw [hform]
    simp only [List.length_append, List.length_cons, List.length_nil,
      length_writeUInt32]
    omega
  have hf0 : readByteD L 0 = 1 := by
    rw [hform]
    rfl
  have hf1 : readByteD L 1 = 1 := by
    rw [hform]
    rfl
  have hu : readUInt32 L 2 = md.length := by
    rw [hform, show (2 : Nat) = ([1, 1] : List Nat).length from rfl]
    exact readUInt32_append _ _ _ hl1
  have hc : readUInt32 L 6 = (comp.toGzip md).length := by
    rw [hform, ← List.append_assoc]
    rw [show (6 : Nat) = (([1, 1] : List Nat) ++
      writeUInt32 md.length).length from by
      simp only [List.length_append, List.length_cons, List.length_nil,
        length_writeUInt32]]
    exact readUInt32_append _ _ _ hl2
  have hdrop : L.drop 10 = comp.toGzip md := by
    have hform2 : L = (([1, 1] ++ writeUInt32 md.length) ++
        writeUInt32 (comp.toGzip md).length) ++ comp.toGzip md := by
      rw [hform]
      simp [List.append_assoc]
    rw [hform2]
    rw [show (10 : Nat) = ((([1, 1] ++ writeUInt32 md.length) ++
      writeUInt32 (comp.toGzip md).length) : List Nat).length from by
      simp only [List.length_append, List.length_cons, List.length_nil,
        length_writeUInt32]]
    rw [List.drop_left]
  unfold «from»
  rw [hf0, hf1, hu, hc, hdrop, List.take_length]
  rw [if_neg (by omega), if_neg (by omega), if_neg (by omega),
    if_pos rfl]
  dsimp only
  rw [if_pos rfl, hinv]
  dsimp only
  rw [if_neg (by omega)]

/-- A nonempty message's chunk data starts with a 4-byte length prefix,
so it is at least 4 bytes long. -/
theorem encodeAllChunks_pos (p : Protocol) (c : Chunk) (cs : List Chunk)
    (md : List Nat) (he : encodeAllChunks p (c :: cs) = some md) :
    4 ≤ md.length := by
  unfold encodeAllChunks at he
  cases hcb : encodeChunk p c with
  | none =>
    rw [hcb] at he
    exact absurd he (by simp)
  | some cb =>
    cases hrest : encodeAllChunks p cs with
    | none =>
      rw [hcb, hrest] at he
      exact absurd he (by simp)
    | some rest =>
      rw [hcb, hrest] at he
      have hmd : writeUInt32 cb.length ++ cb ++ rest = md :=
        Option.some.inj he
      rw [← hmd]
      simp only [List.length_append, length_writeUInt32]
      omega

/-- C1: round-trip identity.  For every valid message (nonempty, each
chunk one of the three meta variants with representable strings, RAW
content encoding, data agreeing with its content-type tag), decoding the
encoded bytes returns the message itself, both with no compressor and
with a compressor (modelled as an exact inverse pair) forced by a zero
threshold. -/
theorem c1_roundtrip (comp : Compressor) (N : Nat) (m : List Chunk)
    (md : List Nat) (hv : ValidMessage m)
    (hinv : ∀ x, comp.fromGzip (comp.toGzip x) = x)
    (hmd : encodeAllChunks (⟨none, N⟩ : Protocol) m = some md)
    (h1 : md.length < 2 ^ 32) (h2 : (comp.toGzip md).length < 2 ^ 32) :
    (∃ b, «to» (⟨none, N⟩ : Protocol) m = some b ∧
      «from» (⟨none, N⟩ : Protocol) b = some m) ∧
    (∃ b, «to» (⟨some comp, 0⟩ : Protocol) m = some b ∧
      «from» (⟨some comp, 0⟩ : Protocol) b = some m) := by
  obtain ⟨hne, hvc⟩ := hv
  have hcenc : ∀ c ∈ m, c.payload.contentEncoding = 0 :=
    fun c hc => (hvc c hc).2.2.1
  have hparse : parseChunks (⟨none, N⟩ : Protocol) md = some m :=
    parseChunks_encodeAll _ m md hvc hmd h1
  have hmd2 : encodeAllChunks (⟨some comp, 0⟩ : Protocol) m = some md := by
    rw [encodeAllChunks_indep (⟨some comp, 0⟩ : Protocol)
      (⟨none, N⟩ : Protocol) m hcenc]
    exact hmd
  have hparse2 : parseChunks (⟨some comp, 0⟩ : Protocol) md = some m :=
    parseChunks_encodeAll _ m md hvc hmd2 h1
  have hpos : 0 < md.length := by
    cases m with
    | nil => exact absurd rfl hne
    | cons c cs =>
      have h4 := encodeAllChunks_pos _ c cs md hmd
      omega
  constructor
  · refine ⟨writeUInt8 0 ++ writeUInt8 0 ++ writeUInt32 md.length ++
      writeUInt32 md.length ++ md, ?_, ?_⟩
    · unfold «to»
      rw [hmd]
    · rw [from_header_raw _ md h1, hparse]
  · refine ⟨writeUInt8 1 ++ writeUInt8 1 ++ writeUInt32 md.length ++
      writeUInt32 (comp.toGzip md).length ++ comp.toGzip md, ?_, ?_⟩
    · unfold «to»
      rw [hmd2]
      dsimp only
      rw [if_pos hpos]
    · rw [from_header_gzip comp 0 md (hinv md) h1 h2, hparse2]

/-- Witness for C1: a one-chunk Ack message round-trips under both
configurations, with the identity compressor. -/
theorem c1_roundtrip_witness :
    (∃ b, «to» (⟨none, 10240⟩ : Protocol)
        [⟨.jobj [(typeKey, .jnum 2), (uuidKey, .jstr [97])],
          ⟨.vbool true, 2, 0⟩⟩] = some b ∧
      «from» (⟨none, 10240⟩ : Protocol) b =
        some [⟨.jobj [(typeKey, .jnum 2), (uuidKey, .jstr [97])],
          ⟨.vbool true, 2, 0⟩⟩]) ∧
    (∃ b, «to» (⟨some ⟨id, id, id, id⟩, 0⟩ : Protocol)
        [⟨.jobj [(typeKey, .jnum 2), (uuidKey, .jstr [97])],
          ⟨.vbool true, 2, 0⟩⟩] = some b ∧
      «from» (⟨some ⟨id, id, id, id⟩, 0⟩ : Protocol) b =
        some [⟨.jobj [(typeKey, .jnum 2), (uuidKey, .jstr [97])],
          ⟨.vbool true, 2, 0⟩⟩]) :=
  c1_roundtrip ⟨id, id, id, id⟩ 10240
    [⟨.jobj [(typeKey, .jnum 2), (uuidKey, .jstr [97])],
      ⟨.vbool true, 2, 0⟩⟩]
    [0, 0, 0, 32, 0, 0, 0, 21, 123, 34, 116, 121, 112, 101, 34, 58, 50,
      44, 34, 117, 117, 105, 100, 34, 58, 34, 97, 34, 125, 0, 0, 0, 1,
      2, 0, 1]
    ⟨by simp, by
      intro c hc
      rw [List.mem_singleton] at hc
      subst hc
      exact ⟨Or.inr (Or.inr ⟨[97], rfl⟩), by decide, rfl, trivial⟩⟩
    (fun x => rfl) (by decide) (by decide) (by decide)

/-- Modelled from the spec: the chunk block layout the spec describes,
`contentType(1) ‖ metaLength(4) ‖ meta ‖ payloadLength(4) ‖ payload`,
to be compared with the layout `encodeChunk` actually emits. -/
def chunkLayoutSpec (mb pb : List Nat) (ct : Nat) : List Nat :=
  writeUInt8 ct ++ writeUInt32 mb.length ++ mb ++ writeUInt32 pb.length ++ pb

/-- Counterexample to C2 as stated: the chunk `{meta = {}, payload =
BOOLEAN true, RAW}` encodes to `metaLength ‖ meta ‖ payloadLength ‖
contentType ‖ contentEncoding ‖ payload`, which differs from the
tag-first layout the spec describes (the tag is not first, and a
content-encoding byte sits between the payload length and the payload). -/
theorem c2_layout_counterexample :
    encodeChunk (⟨none, 10240⟩ : Protocol)
        ⟨.jobj [], ⟨.vbool true, 2, 0⟩⟩ =
      some [0, 0, 0, 2, 123, 125, 0, 0, 0, 1, 2, 0, 1] ∧
    encodePayloadData (.vbool true) 2 = some [1] ∧
    encodeString (jxStringify (Jx.jobj [])) = [123, 125] ∧
    [0, 0, 0, 2, 123, 125, 0, 0, 0, 1, 2, 0, 1] ≠
      chunkLayoutSpec [123, 125] [1] 2 :=
  ⟨by decide, by decide, by decide, by decide⟩

/-- C2 (amended): the encoded chunk block is, in order, the 4-byte
big-endian metadata length, the metadata bytes (UTF-8 JSON of meta), the
4-byte big-endian payload length, the 1-byte content-type tag, the 1-byte
content-encoding tag, then the payload bytes; and `decodeChunk` reads the
fields back in that same order (meta parsed as JSON, payload decoded via
the payload codec under the tag). -/
theorem c2_chunk_layout (p : Protocol) (c : Chunk) (db : List Nat)
    (hmok : metaOk c.meta = true)
    (hdb : encodePayloadData c.payload.data c.payload.contentType = some db)
    (hce : c.payload.contentEncoding = 0)
    (hml : (encodeString (jxStringify c.meta)).length < 2 ^ 32)
    (hdl : db.length < 2 ^ 32) (hct : c.payload.contentType < 256) :
    encodeChunk p c = some
      (writeUInt32 (encodeString (jxStringify c.meta)).length ++
        (encodeString (jxStringify c.meta) ++ (writeUInt32 db.length ++
        c.payload.contentType :: 0 :: db))) ∧
    decodeChunk p
      (writeUInt32 (encodeString (jxStringify c.meta)).length ++
        (encodeString (jxStringify c.meta) ++ (writeUInt32 db.length ++
        c.payload.contentType :: 0 :: db))) =
      match jsonParse (utf8Decode (encodeString (jxStringify c.meta))) with
      | none => none
      | some meta =>
        match decodePayloadData db c.payload.contentType with
        | none => none
        | some data => some ⟨meta, ⟨data, c.payload.contentType, 0⟩⟩ := by
  constructor
  · unfold encodeChunk
    rw [if_neg (by rw [hmok]; simp), hdb]
    dsimp only
    rw [hce]
    rw [if_neg (by omega), if_neg (by omega), if_pos rfl]
    dsimp only
    congr 1
    rw [show writeUInt8 c.payload.contentType =
        [c.payload.contentType] from by
      unfold writeUInt8
      rw [Nat.mod_eq_of_lt hct]]
    rw [show writeUInt8 0 = [0] from rfl]
    simp [List.append_assoc]
  · exact decodeChunk_raw_layout p _ db c.payload.contentType hml hdl hct

/-- Witness for C2: the amended layout on the concrete chunk
`{meta = {}, payload = BOOLEAN true, RAW}` with payload bytes `[1]`. -/
theorem c2_chunk_layout_witness :
    encodeChunk (⟨none, 10240⟩ : Protocol)
        ⟨.jobj [], ⟨.vbool true, 2, 0⟩⟩ = some
      (writeUInt32 (encodeString (jxStringify (Jx.jobj []))).length ++
        (encodeString (jxStringify (Jx.jobj [])) ++
        (writeUInt32 ([1] : List Nat).length ++ 2 :: 0 :: [1]))) ∧
    decodeChunk (⟨none, 10240⟩ : Protocol)
      (writeUInt32 (encodeString (jxStringify (Jx.jobj []))).length ++
        (encodeString (jxStringify (Jx.jobj [])) ++
        (writeUInt32 ([1] : List Nat).length ++ 2 :: 0 :: [1]))) =
      match jsonParse (utf8Decode (encodeString
          (jxStringify (Jx.jobj [])))) with
      | none => none
      | some meta =>
        match decodePayloadData [1] 2 with
        | none => none
        | some data => some ⟨meta, ⟨data, 2, 0⟩⟩ :=
  c2_chunk_layout ⟨none, 10240⟩ ⟨.jobj [], ⟨.vbool true, 2, 0⟩⟩ [1]
    rfl rfl rfl (by decide) (by decide) (by decide)

/-- `encodeChunk` reads the protocol state only through its compressor. -/
theorem encodeChunk_compressor (p q : Protocol) (c : Chunk)
    (h : p.compressor = q.compressor) :
    encodeChunk p c = encodeChunk q c := by
  unfold encodeChunk
  rw [h]

/-- `encodeAllChunks` reads the protocol state only through its
compressor. -/
theorem encodeAllChunks_compressor (p q : Protocol)
    (h : p.compressor = q.compressor) : ∀ (m : List Chunk),
    encodeAllChunks p m = encodeAllChunks q m := by
  intro m
  induction m with
  | nil => rfl
  | cons c cs ih =>
    unfold encodeAllChunks
    rw [encodeChunk_compressor p q c h, ih]

/-- Counterexample to C3 as stated: with no compressor and threshold 0,
a message whose serialized chunk data is 16 bytes long (strictly over the
threshold) still encodes successfully (flag 0, uncompressed) instead of
returning an EncodeError. -/
theorem c3_counterexample :
    «to» (⟨none, 0⟩ : Protocol) [⟨.jobj [], ⟨.undef, 0, 0⟩⟩] =
      some [0, 0, 0, 0, 0, 16, 0, 0, 0, 16, 0, 0, 0, 12, 0, 0, 0, 2,
        123, 125, 0, 0, 0, 0, 0, 0] ∧
    encodeAllChunks (⟨none, 0⟩ : Protocol) [⟨.jobj [], ⟨.undef, 0, 0⟩⟩] =
      some [0, 0, 0, 12, 0, 0, 0, 2, 123, 125, 0, 0, 0, 0, 0, 0] ∧
    0 < ([0, 0, 0, 12, 0, 0, 0, 2, 123, 125, 0, 0, 0, 0, 0,
      0] : List Nat).length :=
  ⟨by decide, by decide, by decide⟩

/-- C3 (amended): with no compressor, encoding a chunk whose payload
content-encoding is GZIP or DEFLATE fails, and decoding a buffer whose
compression flag byte is 1 fails; but the size threshold has no effect at
all without a compressor (`to` never fails on it — it encodes the message
uncompressed, identically for every threshold). -/
theorem c3_no_compressor :
    (∀ (p : Protocol) (c : Chunk), p.compressor = none →
      (c.payload.contentEncoding = 1 ∨ c.payload.contentEncoding = 2) →
      encodeChunk p c = none) ∧
    (∀ (p : Protocol) (buffer : List Nat), p.compressor = none →
      readByteD buffer 0 = 1 → «from» p buffer = none) ∧
    (∀ (a b : Nat) (m : List Chunk),
      «to» (⟨none, a⟩ : Protocol) m = «to» (⟨none, b⟩ : Protocol) m) := by
  refine ⟨?_, ?_, ?_⟩
  · intro p c hcomp hcenc
    unfold encodeChunk
    by_cases hm : metaOk c.meta = false
    · rw [if_pos hm]
    rw [if_neg hm]
    cases hpd : encodePayloadData c.payload.data c.payload.contentType with
    | none => rfl
    | some db =>
      dsimp only
      rcases hcenc with hce | hce
      · rw [hce, if_pos rfl, hcomp]
      · rw [hce, if_neg (by omega), if_pos rfl, hcomp]
  · intro p buffer hcomp hflag
    unfold «from»
    rw [hflag, hcomp]
    by_cases h1 : buffer.length < 10
    · rw [if_pos h1]
    rw [if_neg h1]
    by_cases h2 : buffer.length < 10 + readUInt32 buffer 6
    · rw [if_pos h2]
    rw [if_neg h2]
    by_cases h3 : ((buffer.drop 10).take (readUInt32 buffer 6)).length ≠
        readUInt32 buffer 6
    · rw [if_pos h3]
    rw [if_neg h3, if_pos rfl]
  · intro a b m
    unfold «to»
    rw [encodeAllChunks_compressor (⟨none, a⟩ : Protocol)
      (⟨none, b⟩ : Protocol) rfl m]

/-- Witness for C3: a GZIP-tagged chunk is rejected without a compressor,
a flag-1 buffer is rejected without a compressor, and thresholds 0 and 99
encode an over-threshold message identically. -/
theorem c3_no_compressor_witness :
    encodeChunk (⟨none, 10240⟩ : Protocol)
      ⟨.jobj [], ⟨.undef, 0, 1⟩⟩ = none ∧
    «from» (⟨none, 7⟩ : Protocol) [1, 1, 0, 0, 0, 0, 0, 0, 0, 0] = none ∧
    «to» (⟨none, 0⟩ : Protocol) [⟨.jobj [], ⟨.undef, 0, 0⟩⟩] =
      «to» (⟨none, 99⟩ : Protocol) [⟨.jobj [], ⟨.undef, 0, 0⟩⟩] :=
  ⟨c3_no_compressor.1 ⟨none, 10240⟩ ⟨.jobj [], ⟨.undef, 0, 1⟩⟩ rfl
      (Or.inl rfl),
    c3_no_compressor.2.1 ⟨none, 7⟩ [1, 1, 0, 0, 0, 0, 0, 0, 0, 0] rfl rfl,
    c3_no_compressor.2.2 0 99 [⟨.jobj [], ⟨.undef, 0, 0⟩⟩]⟩

/-- Reading a byte at an index inside the left part of an append ignores
the right part. -/
theorem readByteD_left (b e : List Nat) (i : Nat) (h : i < b.length) :
    readByteD (b ++ e) i = readByteD b i := by
  simp only [readByteD, List.getD_eq_getElem?_getD,
    List.getElem?_append_left h]

/-- Reading a 32-bit word wholly inside the left part of an append
ignores the right part. -/
theorem readUInt32_left (b e : List Nat) (i : Nat)
    (h : i + 4 ≤ b.length) :
    readUInt32 (b ++ e) i = readUInt32 b i := by
  unfold readUInt32
  rw [readByteD_left b e i (by omega),
    readByteD_left b e (i + 1) (by omega),
    readByteD_left b e (i + 2) (by omega),
    readByteD_left b e (i + 3) (by omega)]

/-- Counterexample to C4 as stated: the 11-byte buffer
`[0,0,0,0,0,0,0,0,0,0,99]` carries one trailing byte beyond the declared
message length (header 10 bytes + declared compressed length 0), yet
`from` returns the empty message instead of a DecodeError. -/
theorem c4_counterexample :
    «from» (⟨none, 10240⟩ : Protocol)
      [0, 0, 0, 0, 0, 0, 0, 0, 0, 0, 99] = some [] ∧
    ([0, 0, 0, 0, 0, 0, 0, 0, 0, 0, 99] : List Nat).length =
      10 + readUInt32 [0, 0, 0, 0, 0, 0, 0, 0, 0, 0, 99] 6 + 1 :=
  ⟨rfl, rfl⟩

/-- C4 (amended): trailing bytes beyond the declared message length are
silently ignored (`from` reads only the header and the declared number of
data bytes, so appending anything changes nothing); within the chunk
data, the loop does fail on any shortfall (a nonempty tail shorter than a
length prefix) or overrun (a length prefix declaring more bytes than
remain). -/
theorem c4_framing :
    (∀ (p : Protocol) (buffer extra : List Nat),
      10 + readUInt32 buffer 6 ≤ buffer.length →
      «from» p (buffer ++ extra) = «from» p buffer) ∧
    (∀ (p : Protocol) (d : List Nat), d.length ≠ 0 → d.length < 4 →
      parseChunks p d = none) ∧
    (∀ (p : Protocol) (n : Nat) (body : List Nat), n < 2 ^ 32 →
      body.length < n → parseChunks p (writeUInt32 n ++ body) = none) := by
  refine ⟨?_, ?_, ?_⟩
  · intro p buffer extra hle
    have hb0 : readByteD (buffer ++ extra) 0 = readByteD buffer 0 :=
      readByteD_left buffer extra 0 (by omega)
    have hb1 : readByteD (buffer ++ extra) 1 = readByteD buffer 1 :=
      readByteD_left buffer extra 1 (by omega)
    have h2 : readUInt32 (buffer ++ extra) 2 = readUInt32 buffer 2 :=
      readUInt32_left buffer extra 2 (by omega)
    have h6 : readUInt32 (buffer ++ extra) 6 = readUInt32 buffer 6 :=
      readUInt32_left buffer extra 6 (by omega)
    have hdr : (buffer ++ extra).drop 10 = buffer.drop 10 ++ extra :=
      List.drop_append_of_le_length (by omega)
    have htk : ((buffer ++ extra).drop 10).take (readUInt32 buffer 6) =
        (buffer.drop 10).take (readUInt32 buffer 6) := by
      rw [hdr]
      exact List.take_append_of_le_length (by
        rw [List.length_drop]
        omega)
    have hlb : (buffer ++ extra).length = buffer.length + extra.length :=
      List.length_append _ _
    unfold «from»
    rw [hb0, hb1, h2, h6, htk]
    rw [if_neg (show ¬((buffer ++ extra).length < 10) by
        rw [hlb]; omega),
      if_neg (show ¬((buffer ++ extra).length <
          10 + readUInt32 buffer 6) by
        rw [hlb]; omega),
      if_neg (show ¬(buffer.length < 10) by omega),
      if_neg (show ¬(buffer.length < 10 + readUInt32 buffer 6) by omega)]
  · intro p d hne hlt
    unfold parseChunks
    rw [parseChunksF_succ, if_neg hne, if_pos hlt]
  · intro p n body hn hlt
    unfold parseChunks
    rw [parseChunksF_succ]
    have hlen : (writeUInt32 n ++ body).length = body.length + 4 := by
      simp only [List.length_append, length_writeUInt32]
      omega
    have h0 : readUInt32 (writeUInt32 n ++ body) 0 = n :=
      readUInt32_here body n hn
    rw [h0, if_neg (by omega), if_neg (by omega), if_pos (by omega)]

/-- Witness for C4: a trailing byte after an empty message is ignored; a
2-byte tail and a length prefix declaring 5 bytes with a 1-byte body both
fail the chunk loop. -/
theorem c4_framing_witness :
    «from» (⟨none, 10240⟩ : Protocol)
        ([0, 0, 0, 0, 0, 0, 0, 0, 0, 0] ++ [99]) =
      «from» (⟨none, 10240⟩ : Protocol) [0, 0, 0, 0, 0, 0, 0, 0, 0, 0] ∧
    parseChunks (⟨none, 10240⟩ : Protocol) [7, 7] = none ∧
    parseChunks (⟨none, 10240⟩ : Protocol) (writeUInt32 5 ++ [1]) = none :=
  ⟨c4_framing.1 ⟨none, 10240⟩ [0, 0, 0, 0, 0, 0, 0, 0, 0, 0] [99]
      (by decide),
    c4_framing.2.1 ⟨none, 10240⟩ [7, 7] (by decide) (by decide),
    c4_framing.2.2 ⟨none, 10240⟩ 5 [1] (by decide) (by decide)⟩

/-- C5: with a compressor configured, the first byte of `to`'s output is
the compression flag, 1 exactly when the serialized chunk data is
strictly longer than `maxUncompressedSize` and 0 otherwise. -/
theorem c5_compression_flag (comp : Compressor) (N : Nat) (m : List Chunk)
    (md : List Nat)
    (hmd : encodeAllChunks (⟨some comp, N⟩ : Protocol) m = some md) :
    ∃ b, «to» (⟨some comp, N⟩ : Protocol) m = some b ∧
      b.head? = some (if N < md.length then 1 else 0) := by
  unfold «to»
  rw [hmd]
  dsimp only
  by_cases h : N < md.length
  · rw [if_pos h, if_pos h]
    exact ⟨_, rfl, rfl⟩
  · rw [if_neg h, if_neg h]
    exact ⟨_, rfl, rfl⟩

/-- Witness for C5: threshold 0 with 16 bytes of chunk data sets the
flag byte to 1. -/
theorem c5_compression_flag_witness :
    ∃ b, «to» (⟨some ⟨id, id, id, id⟩, 0⟩ : Protocol)
        [⟨.jobj [], ⟨.undef, 0, 0⟩⟩] = some b ∧
      b.head? = some 1 :=
  c5_compression_flag ⟨id, id, id, id⟩ 0 [⟨.jobj [], ⟨.undef, 0, 0⟩⟩]
    [0, 0, 0, 12, 0, 0, 0, 2, 123, 125, 0, 0, 0, 0, 0, 0] (by decide)

/-- C6: the content-type tag space is closed: every tag value outside
0..6 makes both the payload encoder and the payload decoder fail, for
every data value and every buffer — never a coercion to a default. -/
theorem c6_unknown_content_type (t : Nat) (h : 7 ≤ t) (d : JsVal)
    (b : List Nat) :
    encodePayloadData d t = none ∧ decodePayloadData b t = none := by
  constructor
  · unfold encodePayloadData
    rw [if_neg (by omega), if_neg (by omega), if_neg (by omega),
      if_neg (by omega), if_neg (by omega), if_neg (by omega),
      if_neg (by omega)]
  · unfold decodePayloadData
    rw [if_neg (by omega), if_neg (by omega), if_neg (by omega),
      if_neg (by omega), if_neg (by omega), if_neg (by omega),
      if_neg (by omega)]

/-- Witness for C6: tag 7 is rejected in both directions. -/
theorem c6_unknown_content_type_witness :
    encodePayloadData .undef 7 = none ∧ decodePayloadData [] 7 = none :=
  c6_unknown_content_type 7 (by decide) .undef []

/-- Counterexample to C7 as stated: encoding a BUFFER payload whose data
is not a byte sequence (here `undefined`) does not fail — the data is
coerced through `new Uint8Array(data)` and encoding succeeds with an
empty buffer. -/
theorem c7_counterexample :
    encodePayloadData .undef 6 = some [] ∧
    encodePayloadData .undef 6 ≠ none :=
  ⟨rfl, by decide⟩

/-- C7 (amended): a BUFFER payload whose data is already a byte sequence
encodes to exactly those bytes (identity transform).  A non-buffer value
does not uniformly fail as the spec says: it is coerced through
`new Uint8Array(data)` — `undefined` yields the empty buffer and
encoding succeeds, a nonnegative number (here 3.0) yields that many zero
bytes, while a negative number (here -1.0) throws a RangeError and
encoding does fail. -/
theorem c7_buffer_passthrough :
    (∀ b : List Nat, encodePayloadData (.vbuf b) 6 = some b) ∧
    encodePayloadData .undef 6 = some [] ∧
    encodePayloadData (.vnum 0x4008000000000000) 6 = some [0, 0, 0] ∧
    encodePayloadData (.vnum 0xBFF0000000000000) 6 = none := by
  refine ⟨fun b => rfl, rfl, by decide, by decide⟩

/-- Witness for C7: a two-byte buffer passes through unchanged. -/
theorem c7_buffer_passthrough_witness :
    encodePayloadData (.vbuf [5, 6]) 6 = some [5, 6] :=
  c7_buffer_passthrough.1 [5, 6]

/-- C8: only the exact flag byte value 1 selects the compressed path: a
buffer whose first byte is anything else decodes exactly as if the flag
were 0, and over a well-formed uncompressed body (with matching lengths)
such a buffer decodes through the chunk loop rather than being rejected
for an invalid flag. -/
theorem c8_flag_not_one :
    (∀ (p : Protocol) (flag : Nat) (rest : List Nat), flag ≠ 1 →
      «from» p (flag :: rest) = «from» p (0 :: rest)) ∧
    (∀ (p : Protocol) (md : List Nat) (flag : Nat), flag ≠ 1 →
      md.length < 2 ^ 32 →
      «from» p (flag :: (writeUInt8 0 ++ writeUInt32 md.length ++
        writeUInt32 md.length ++ md)) = parseChunks p md) := by
  have hmain : ∀ (p : Protocol) (flag : Nat) (rest : List Nat), flag ≠ 1 →
      «from» p (flag :: rest) = «from» p (0 :: rest) := by
    intro p flag rest h
    unfold «from»
    rw [show readUInt32 (flag :: rest) 2 =
        readUInt32 ((0 : Nat) :: rest) 2 from rfl,
      show readUInt32 (flag :: rest) 6 =
        readUInt32 ((0 : Nat) :: rest) 6 from rfl,
      show (flag :: rest).length = ((0 : Nat) :: rest).length from rfl,
      show (flag :: rest).drop 10 = ((0 : Nat) :: rest).drop 10 from rfl,
      show readByteD (flag :: rest) 1 =
        readByteD ((0 : Nat) :: rest) 1 from rfl,
      show readByteD (flag :: rest) 0 = flag from rfl,
      show readByteD ((0 : Nat) :: rest) 0 = 0 from rfl]
    by_cases h1 : ((0 : Nat) :: rest).length < 10
    · rw [if_pos h1, if_pos h1]
    rw [if_neg h1, if_neg h1]
    by_cases h2 : ((0 : Nat) :: rest).length <
        10 + readUInt32 ((0 : Nat) :: rest) 6
    · rw [if_pos h2, if_pos h2]
    rw [if_neg h2, if_neg h2]
    by_cases h3 : ((((0 : Nat) :: rest).drop 10).take
        (readUInt32 ((0 : Nat) :: rest) 6)).length ≠
        readUInt32 ((0 : Nat) :: rest) 6
    · rw [if_pos h3, if_pos h3]
    rw [if_neg h3, if_neg h3, if_neg h,
      if_neg (show ¬((0 : Nat) = 1) by omega)]
  refine ⟨hmain, ?_⟩
  intro p md flag h hlen
  rw [hmain p flag _ h]
  exact from_header_raw p md hlen

/-- Witness for C8: flag byte 2 over an all-zero header decodes exactly
as flag 0, and over a well-formed empty body yields the empty message. -/
theorem c8_flag_not_one_witness :
    «from» (⟨none, 10240⟩ : Protocol) (2 :: [0, 0, 0, 0, 0, 0, 0, 0, 0]) =
      «from» (⟨none, 10240⟩ : Protocol) (0 :: [0, 0, 0, 0, 0, 0, 0, 0, 0]) ∧
    «from» (⟨none, 10240⟩ : Protocol) (255 :: (writeUInt8 0 ++
        writeUInt32 ([] : List Nat).length ++
        writeUInt32 ([] : List Nat).length ++ ([] : List Nat))) =
      parseChunks (⟨none, 10240⟩ : Protocol) [] :=
  ⟨c8_flag_not_one.1 ⟨none, 10240⟩ 2 [0, 0, 0, 0, 0, 0, 0, 0, 0]
      (by decide),
    c8_flag_not_one.2 ⟨none, 10240⟩ [] 255 (by decide) (by decide)⟩

/-- C9: chunk metadata is not structurally validated on decode — any
syntactically valid JSON text (here in a well-framed block with an empty
UNDEFINED payload) comes back as the parsed `meta`, object or not — while
the encoder rejects any meta that is absent, falsy or not an object. -/
theorem c9_meta_unvalidated :
    (∀ (p : Protocol) (mb : List Nat) (j : Jx),
      jsonParse (utf8Decode mb) = some j → mb.length < 2 ^ 32 →
      decodeChunk p (writeUInt32 mb.length ++
        (mb ++ (writeUInt32 0 ++ 0 :: 0 :: []))) =
        some ⟨j, ⟨.undef, 0, 0⟩⟩) ∧
    (∀ (p : Protocol) (c : Chunk), metaOk c.meta = false →
      encodeChunk p c = none) := by
  constructor
  · intro p mb j hj hml
    have h := decodeChunk_raw_layout p mb [] 0 hml (by decide) (by decide)
    simp only [List.length_nil] at h
    rw [h, hj]
    rfl
  · intro p c h
    unfold encodeChunk
    rw [if_pos h]

/-- Witness for C9: the bare JSON number `5` (byte 53) decodes as the
chunk's meta, and a chunk carrying that meta is rejected on encode. -/
theorem c9_meta_unvalidated_witness :
    decodeChunk (⟨none, 10240⟩ : Protocol)
      (writeUInt32 ([53] : List Nat).length ++
        ([53] ++ (writeUInt32 0 ++ 0 :: 0 :: []))) =
      some ⟨.jnum 5, ⟨.undef, 0, 0⟩⟩ ∧
    encodeChunk (⟨none, 10240⟩ : Protocol) ⟨.jnum 5, ⟨.undef, 0, 0⟩⟩ =
      none :=
  ⟨c9_meta_unvalidated.1 ⟨none, 10240⟩ [53] (.jnum 5) rfl (by decide),
    c9_meta_unvalidated.2 ⟨none, 10240⟩ ⟨.jnum 5, ⟨.undef, 0, 0⟩⟩ rfl⟩

/-- C10: the payload decoder's fixed-offset reads are unguarded: a
well-framed chunk block declaring content type BOOLEAN with payload
length 0 decodes successfully to `true` (the out-of-bounds byte read
yields `undefined`, and `undefined !== 0`), instead of failing with a
DecodeError for the length mismatch. -/
theorem c10_unguarded_reads :
    decodeChunk (⟨none, 10240⟩ : Protocol)
      [0, 0, 0, 2, 123, 125, 0, 0, 0, 0, 2, 0] =
      some ⟨.jobj [], ⟨.vbool true, 2, 0⟩⟩ ∧
    decodePayloadData [] 2 = some (.vbool true) ∧
    readUInt8 [] 0 = none :=
  ⟨rfl, rfl, rfl⟩

end QProto
